import Mathlib

/-!
Ethereum simple parser: the synchronisation engine and its subscriber store.

A shallow embedding of `db/db.go`, `ethereum/ethereum.go` (data types and the
observable behaviour of `RPCQuery`) and `parser/parser.go`.

Modelling conventions.

* `uint64` values are natural numbers; the one place where the source can
  overflow (`blockNumber++` and `endBlock + 1`) is written with an explicit
  `% 2 ^ 64`.
* A Go slice stored in `TransactionData.Transactions` is a list: the code only
  appends to it, so a nil slice and an empty slice are the same value there.
  The slice returned by `GetTransactions` is compared with `nil` by its
  callers, so that result is an `Option`: `none` is the nil slice.
* A Go `map[string]TransactionData` is an association list with pairwise
  distinct keys (`Subscribers`, `Subscribers.WF`).  A `range` loop that writes
  every entry back under its own key is a map over the entries
  (`rangeAssign_eq_map`); the order of iteration does not matter.
  `GetSubscribers` hands out the store's own map, so the writes
  `updateSubscribersData` makes to that map are writes to the store.
* The remote node is a value of type `Chain`: what `RPCQuery` answers to
  `eth_blockNumber` and to `eth_getBlockByNumber` at each height.  Within one
  call of the parser, as long as the block counter does not wrap, every such
  query is issued at most once per height, so a function of the height covers
  every behaviour of the node during that call.
* The parser's methods are modelled on non-nil receivers (a parser built by
  `NewEthereumSimpleParser` over a store built by `NewMemoryDB`).  The store's
  methods are the bodies behind the guard `memory == nil`; `Ptr.GetSubscriber`
  and its siblings are the methods with that guard, on a receiver that may be
  nil.  `MemoryDBRef`, `GetSubscribersRef` and `assignEntry` spell out that the
  map field is a reference.
* The two block loops need not terminate (the counter wraps at `2 ^ 64`), so
  they take a fuel argument that bounds the number of loop tests; `Run.outOfFuel`
  is the answer of a run that needs more.  A run-time panic is `Run.panic`.
-/

namespace EthParser

/-! ## ethereum/ethereum.go -/

/-- Simplified Ethereum transaction structure. -/
structure Transaction where
  Hash : String
  BlockNumber : String
  From : String
  To : String
  Value : String
  deriving DecidableEq, Repr

/-- Simplified Ethereum block structure. -/
structure Block where
  Hash : String
  Transactions : List Transaction
  deriving DecidableEq, Repr

/-- The node behind `RPCQuery(endpoint, ...)`, as the parser observes it:
`blockNumber` is the string decoded from the reply to `eth_blockNumber`
(`none` when `RPCQuery` returns an error), `getBlockByNumber h` the block
decoded from the reply to `eth_getBlockByNumber` for height `h` (`none` when
`RPCQuery` returns an error). -/
structure Chain where
  blockNumber : Option String
  getBlockByNumber : Nat → Option Block

/-! ## db/db.go -/

/-- Pending transaction data of a specific subscribed address. -/
structure TransactionData where
  LastBlockNumber : Nat
  Transactions : List Transaction
  deriving DecidableEq, Repr

/-- Create a new transaction data instance. -/
def NewTransactionData : TransactionData :=
  { LastBlockNumber := 0, Transactions := [] }

/-- The Go type `map[string]TransactionData`. -/
abbrev Subscribers := List (String × TransactionData)

/-- Map read `value, exists := m[address]`. -/
def mapGet : Subscribers → String → Option TransactionData
  | [], _ => none
  | (key, value) :: rest, address =>
    if key = address then some value else mapGet rest address

/-- Map write `m[address] = data`. -/
def mapSet : Subscribers → String → TransactionData → Subscribers
  | [], address, data => [(address, data)]
  | (key, value) :: rest, address, data =>
    if key = address then (key, data) :: rest
    else (key, value) :: mapSet rest address data

/-- Map removal `delete(m, address)`. -/
def mapDelete : Subscribers → String → Subscribers
  | [], _ => []
  | (key, value) :: rest, address =>
    if key = address then mapDelete rest address
    else (key, value) :: mapDelete rest address

/-- Representation invariant of a Go map: no key occurs twice. -/
def Subscribers.WF (m : Subscribers) : Prop := (m.map Prod.fst).Nodup

/-- In-memory database. -/
structure MemoryDB where
  subscribers : Subscribers
  deriving DecidableEq, Repr

/-- The errors of the store. -/
inductive StoreError where
  | ErrMemoryDBNotFound
  | ErrAddressNotFound
  deriving DecidableEq, Repr

/-- Initialise a new MemoryDB instance. -/
def NewMemoryDB : MemoryDB := { subscribers := [] }

/-- All subscribers of the database: the store's own map, not a copy. -/
def GetSubscribers (memory : MemoryDB) : Subscribers × Option StoreError :=
  (memory.subscribers, none)

/-- Transaction data of a specific address. -/
def GetSubscriber (memory : MemoryDB) (address : String) :
    TransactionData × Option StoreError :=
  match mapGet memory.subscribers address with
  | some value => (value, none)
  | none => (NewTransactionData, some StoreError.ErrAddressNotFound)

/-- Remove a subscriber from the database. -/
def DeleteSubscriber (memory : MemoryDB) (address : String) :
    MemoryDB × Option StoreError :=
  ({ subscribers := mapDelete memory.subscribers address }, none)

/-- Add or update a subscriber in the database. -/
def SetSubscriber (memory : MemoryDB) (address : String)
    (transactionData : TransactionData) : MemoryDB × Option StoreError :=
  ({ subscribers := mapSet memory.subscribers address transactionData }, none)

/-- Check whether an address is a subscriber. -/
def IsSubscriber (memory : MemoryDB) (address : String) : Bool × Option StoreError :=
  ((mapGet memory.subscribers address).isSome, none)

/-! ## parser/parser.go -/

/-- The value `math.MaxUint64`. -/
def maxUint64 : Nat := 2 ^ 64 - 1

/-- What a call of `ParseHexUint64` does: return `(n, nil)`, return an error,
or panic on the slice expression `hexStr[2:]`. -/
inductive ParseOutcome where
  | value (n : Nat)
  | error
  | panic
  deriving DecidableEq, Repr

/-- The bytes of a Go string. -/
def goBytes (s : String) : List Nat :=
  (s.data.flatMap String.utf8EncodeChar).map UInt8.toNat

/-- One step of the digit loop of Go's `strconv.ParseUint` for base 16: the
value of the byte `c`, or `none` for a byte that is no digit. -/
def hexDigit (c : Nat) : Option Nat :=
  if 48 ≤ c ∧ c ≤ 57 then some (c - 48)
  else if 97 ≤ (c ||| 32) ∧ (c ||| 32) ≤ 122 then
    (if (c ||| 32) - 97 + 10 < 16 then some ((c ||| 32) - 97 + 10) else none)
  else none

/-- The digit loop of Go's `strconv.ParseUint(s, 16, 64)`: `none` is a syntax
or range error. -/
def parseUintLoop : List Nat → Nat → Option Nat
  | [], n => some n
  | c :: rest, n =>
    match hexDigit c with
    | none => none
    | some d =>
      if 2 ^ 60 ≤ n then none
      else if (n * 16 + d) % 2 ^ 64 < n * 16 ∨ maxUint64 < (n * 16 + d) % 2 ^ 64 then none
      else parseUintLoop rest ((n * 16 + d) % 2 ^ 64)

/-- Go's `strconv.ParseUint(s, 16, 64)` on the bytes of `s`. -/
def strconvParseUint (s : List Nat) : Option Nat :=
  if s = [] then none else parseUintLoop s 0

/-- ParseHexUint64 converts a hex-encoded string to a uint64. -/
def ParseHexUint64 (hexStr : String) : ParseOutcome :=
  if (goBytes hexStr).length < 2 then ParseOutcome.panic
  else
    match strconvParseUint ((goBytes hexStr).drop 2) with
    | some n => ParseOutcome.value n
    | none => ParseOutcome.error

/-- How a run of a parser method ends. -/
inductive Run (α : Type) where
  | done (a : α)
  | panic
  | outOfFuel
  deriving DecidableEq, Repr

/-- What a finished parser method leaves behind: its return value, the store,
and the heights it sent to `eth_getBlockByNumber`, in the order sent. -/
structure Outcome (α : Type) where
  result : α
  memory : MemoryDB
  fetched : List Nat
  deriving DecidableEq, Repr

/-- GetCurrentBlock returns the current block number of the Ethereum network,
0 on failure; `none` when `ParseHexUint64` panics. -/
def GetCurrentBlock (c : Chain) : Option Nat :=
  match c.blockNumber with
  | none => some 0
  | some blockNumberHex =>
    match ParseHexUint64 blockNumberHex with
    | ParseOutcome.panic => none
    | ParseOutcome.error => some 0
    | ParseOutcome.value blockNumber => some blockNumber

/-- The minimum `LastBlockNumber` of a map of subscribers, by one pass
starting from `math.MaxUint64`. -/
def findMinBlockNumber (subscribers : Subscribers) : Nat :=
  subscribers.foldl
    (fun minBlockNumber entry =>
      if entry.2.LastBlockNumber < minBlockNumber then entry.2.LastBlockNumber
      else minBlockNumber)
    maxUint64

/-- The test `transaction.From == address || transaction.To == address`. -/
def touches (address : String) (transaction : Transaction) : Bool :=
  decide (transaction.From = address) || decide (transaction.To = address)

/-- Body of `for address, data := range subscribers` in `updateSubscribersData`
for one map entry: append on a match, set the height, write the entry back
under its own key. -/
def updateEntry (blockNumber : Nat) (transaction : Transaction)
    (entry : String × TransactionData) : String × TransactionData :=
  (entry.1,
    { LastBlockNumber := blockNumber,
      Transactions :=
        if touches entry.1 transaction then entry.2.Transactions ++ [transaction]
        else entry.2.Transactions })

/-- The loop `for address, data := range subscribers` of `updateSubscribersData`
written with the map assignment `subscribers[address] = data` for each entry of
the map in turn. -/
def rangeAssign (blockNumber : Nat) (transaction : Transaction)
    (subscribers : Subscribers) : Subscribers :=
  subscribers.foldl
    (fun subs entry => mapSet subs entry.1 (updateEntry blockNumber transaction entry).2)
    subscribers

/-- The loop `for _, transaction := range block.Transactions` of
`updateSubscribersData` for the block fetched at `blockNumber`: for each
transaction in turn, every entry of the map is rewritten by `updateEntry`. -/
def updateBlock (blockNumber : Nat) (transactions : List Transaction)
    (subscribers : Subscribers) : Subscribers :=
  transactions.foldl
    (fun subs transaction => subs.map (updateEntry blockNumber transaction))
    subscribers

/-- The loop of `updateSubscribersData` from `blockNumber` on, with the map and
the heights fetched so far. -/
def updateSubscribersLoop (c : Chain) (endBlock : Nat) :
    Nat → Nat → Subscribers → List Nat → Run (Subscribers × List Nat)
  | 0, _, _, _ => Run.outOfFuel
  | fuel + 1, blockNumber, subscribers, fetched =>
    if blockNumber ≤ endBlock then
      match c.getBlockByNumber blockNumber with
      | none => Run.done (subscribers, fetched ++ [blockNumber])
      | some block =>
        updateSubscribersLoop c endBlock fuel ((blockNumber + 1) % 2 ^ 64)
          (updateBlock blockNumber block.Transactions subscribers)
          (fetched ++ [blockNumber])
    else Run.done (subscribers, fetched)

/-- The function `updateSubscribersData(parser, subscribers, startBlock, endBlock)`. -/
def updateSubscribersData (fuel : Nat) (c : Chain) (subscribers : Subscribers)
    (startBlock endBlock : Nat) : Run (Subscribers × List Nat) :=
  updateSubscribersLoop c endBlock fuel startBlock subscribers []

/-- UpdateTransactionsData updates the transactions data for all subscribed
addresses.  The map it scans is the store's own map. -/
def UpdateTransactionsData (fuel : Nat) (c : Chain) (memory : MemoryDB) :
    Run (Outcome Unit) :=
  match GetSubscribers memory with
  | (_, some _) => Run.done ⟨(), memory, []⟩
  | (subscribers, none) =>
    match c.blockNumber with
    | none => Run.done ⟨(), memory, []⟩
    | some blockNumberHex =>
      match ParseHexUint64 blockNumberHex with
      | ParseOutcome.panic => Run.panic
      | ParseOutcome.error => Run.done ⟨(), memory, []⟩
      | ParseOutcome.value currentBlockNumber =>
        if findMinBlockNumber subscribers = maxUint64 then Run.done ⟨(), memory, []⟩
        else
          match updateSubscribersData fuel c subscribers
              (findMinBlockNumber subscribers) currentBlockNumber with
          | Run.done (subscribers', fetched) =>
            Run.done ⟨(), { subscribers := subscribers' }, fetched⟩
          | Run.panic => Run.panic
          | Run.outOfFuel => Run.outOfFuel

/-- The loop of `retrieveTransactions` from `blockNumber` on, with the
transactions collected and the heights fetched so far. -/
def retrieveLoop (c : Chain) (memory : MemoryDB) (address : String) (endBlock : Nat) :
    Nat → Nat → List Transaction → List Nat → Run (Outcome (List Transaction))
  | 0, _, _, _ => Run.outOfFuel
  | fuel + 1, blockNumber, transactions, fetched =>
    if blockNumber ≤ endBlock then
      match c.getBlockByNumber blockNumber with
      | none =>
        Run.done ⟨transactions,
          (SetSubscriber memory address
            { LastBlockNumber := blockNumber, Transactions := [] }).1,
          fetched ++ [blockNumber]⟩
      | some block =>
        retrieveLoop c memory address endBlock fuel ((blockNumber + 1) % 2 ^ 64)
          (transactions ++ block.Transactions.filter (touches address))
          (fetched ++ [blockNumber])
    else
      Run.done ⟨transactions,
        (SetSubscriber memory address
          { LastBlockNumber := (endBlock + 1) % 2 ^ 64, Transactions := [] }).1,
        fetched⟩

/-- The method `retrieveTransactions(address, startBlock, endBlock)`. -/
def retrieveTransactions (fuel : Nat) (c : Chain) (memory : MemoryDB) (address : String)
    (startBlock endBlock : Nat) : Run (Outcome (List Transaction)) :=
  retrieveLoop c memory address endBlock fuel startBlock [] []

/-- GetTransactions retrieves transactions for a specific subscribed address;
the result `none` is the nil slice of the error returns. -/
def GetTransactions (fuel : Nat) (c : Chain) (memory : MemoryDB) (address : String) :
    Run (Outcome (Option (List Transaction))) :=
  if address = "" then Run.done ⟨none, memory, []⟩
  else
    match IsSubscriber memory address with
    | (_, some _) => Run.done ⟨none, memory, []⟩
    | (false, none) => Run.done ⟨none, memory, []⟩
    | (true, none) =>
      match GetCurrentBlock c with
      | none => Run.panic
      | some currentBlock =>
        if currentBlock = 0 then Run.done ⟨none, memory, []⟩
        else
          match GetSubscriber memory address with
          | (_, some _) => Run.done ⟨none, memory, []⟩
          | (data, none) =>
            if data.LastBlockNumber > currentBlock then Run.done ⟨none, memory, []⟩
            else
              match retrieveTransactions fuel c memory address
                  data.LastBlockNumber currentBlock with
              | Run.done out => Run.done ⟨some out.result, out.memory, out.fetched⟩
              | Run.panic => Run.panic
              | Run.outOfFuel => Run.outOfFuel

/-- SubscribeAddress subscribes to an Ethereum address. -/
def SubscribeAddress (c : Chain) (memory : MemoryDB) (address : String) :
    Run (Outcome Bool) :=
  if address = "" then Run.done ⟨false, memory, []⟩
  else
    match GetCurrentBlock c with
    | none => Run.panic
    | some currentBlockNumber =>
      if currentBlockNumber = 0 then Run.done ⟨false, memory, []⟩
      else
        match SetSubscriber memory address
            { LastBlockNumber := currentBlockNumber, Transactions := [] } with
        | (_, some _) => Run.done ⟨false, memory, []⟩
        | (memory', none) => Run.done ⟨true, memory', []⟩

/-! ## Vocabulary of the specification -/

/-- The transactions of the block at height `h` (none when its fetch fails). -/
def blockTransactions (c : Chain) (h : Nat) : List Transaction :=
  match c.getBlockByNumber h with
  | some block => block.Transactions
  | none => []

/-- The transactions of the block at height `h` whose sender or recipient is
`address`, in block order. -/
def blockMatches (c : Chain) (address : String) (h : Nat) : List Transaction :=
  match c.getBlockByNumber h with
  | some block => block.Transactions.filter (touches address)
  | none => []

/-- The transactions of the blocks at heights `start, ..., start + count - 1`
whose sender or recipient is `address`, by increasing height and in block order. -/
def matchesInRange (c : Chain) (address : String) (start count : Nat) : List Transaction :=
  (List.range' start count).flatMap (blockMatches c address)

/-- The entry of `address` after a block with the given transactions has been
processed at height `blockNumber` by the batch path: untouched by a block
without transactions, otherwise at height `blockNumber` with the block's
matching transactions appended. -/
def entryAfterBlock (blockNumber : Nat) (transactions : List Transaction)
    (address : String) (data : TransactionData) : TransactionData :=
  if transactions = [] then data
  else
    { LastBlockNumber := blockNumber,
      Transactions := data.Transactions ++ transactions.filter (touches address) }

/-- The entry of `address` after the blocks at the given heights have been
processed in turn by the batch path. -/
def entryAfterBlocks (c : Chain) (address : String) (heights : List Nat)
    (data : TransactionData) : TransactionData :=
  heights.foldl (fun d h => entryAfterBlock h (blockTransactions c h) address d) data

/-! ## The store's methods on a receiver that may be nil -/

/-- The method `GetSubscribers` with its guard `memory == nil`; the receiver
`none` is the nil pointer, and the nil map it returns reads as the empty map. -/
def Ptr.GetSubscribers (memory : Option MemoryDB) : Subscribers × Option StoreError :=
  match memory with
  | none => ([], some StoreError.ErrMemoryDBNotFound)
  | some m => EthParser.GetSubscribers m

/-- The method `GetSubscriber` with its guard `memory == nil`. -/
def Ptr.GetSubscriber (memory : Option MemoryDB) (address : String) :
    TransactionData × Option StoreError :=
  match memory with
  | none => (NewTransactionData, some StoreError.ErrMemoryDBNotFound)
  | some m => EthParser.GetSubscriber m address

/-- The method `DeleteSubscriber` with its guard `memory == nil`; the first
component is the receiver after the call. -/
def Ptr.DeleteSubscriber (memory : Option MemoryDB) (address : String) :
    Option MemoryDB × Option StoreError :=
  match memory with
  | none => (none, some StoreError.ErrMemoryDBNotFound)
  | some m => (some (EthParser.DeleteSubscriber m address).1, (EthParser.DeleteSubscriber m address).2)

/-- The method `SetSubscriber` with its guard `memory == nil`; the first
component is the receiver after the call. -/
def Ptr.SetSubscriber (memory : Option MemoryDB) (address : String)
    (transactionData : TransactionData) : Option MemoryDB × Option StoreError :=
  match memory with
  | none => (none, some StoreError.ErrMemoryDBNotFound)
  | some m =>
    (some (EthParser.SetSubscriber m address transactionData).1,
      (EthParser.SetSubscriber m address transactionData).2)

/-- The method `IsSubscriber` with its guard `memory == nil`. -/
def Ptr.IsSubscriber (memory : Option MemoryDB) (address : String) :
    Bool × Option StoreError :=
  match memory with
  | none => (false, some StoreError.ErrMemoryDBNotFound)
  | some m => EthParser.IsSubscriber m address

/-! ## The subscriber map as a reference -/

/-- A Go map value is a reference to a table; a heap gives the table behind
each reference. -/
abbrev MapHeap := Nat → Subscribers

/-- The struct `MemoryDB` with its field as Go holds it: a map reference. -/
structure MemoryDBRef where
  subscribers : Nat
  deriving DecidableEq, Repr

/-- The store a `MemoryDBRef` stands for in a heap. -/
def MemoryDBRef.state (heap : MapHeap) (memory : MemoryDBRef) : MemoryDB :=
  { subscribers := heap memory.subscribers }

/-- The method `GetSubscribers` on references: `return memory.subscribers, nil`
returns the reference held in the field; no table is created. -/
def GetSubscribersRef (memory : MemoryDBRef) : Nat × Option StoreError :=
  (memory.subscribers, none)

/-- The statement `m[address] = data` on the map reference `m`. -/
def assignEntry (heap : MapHeap) (m : Nat) (address : String) (data : TransactionData) :
    MapHeap :=
  fun r => if r = m then mapSet (heap r) address data else heap r

/-! ## The height as the engine sends it -/

/-- The digit loop of `fmt.Sprintf("%x", u)`: the base-16 digits of `u`, most
significant first; `fuel` bounds the number of rounds. -/
def hexDigitsLoop : Nat → Nat → List Nat
  | 0, u => [u]
  | fuel + 1, u => if 16 ≤ u then hexDigitsLoop fuel (u / 16) ++ [u % 16] else [u]

/-- The base-16 digits of `u`, most significant first. -/
def hexDigits (u : Nat) : List Nat := hexDigitsLoop u u

/-- The character of the table `0123456789abcdef` at index `d`. -/
def hexChar (d : Nat) : Char :=
  if d < 10 then Char.ofNat (48 + d) else Char.ofNat (87 + d)

/-- The string `fmt.Sprintf("0x%x", blockNumber)`. -/
def sprintfHex (blockNumber : Nat) : String :=
  "0x" ++ String.mk ((hexDigits blockNumber).map hexChar)

/-- Every height of the map fits the type `uint64`. -/
def Subscribers.Uint64 (m : Subscribers) : Prop :=
  ∀ e ∈ m, e.2.LastBlockNumber ≤ maxUint64

/-- The heights `b, b + 1, ...` (`n` of them) as the `uint64` block counter of
the two loops takes them: counted modulo `2 ^ 64`. -/
def wrapHeights (b n : Nat) : List Nat :=
  (List.range n).map (fun i => (b + i) % 2 ^ 64)

/-! ## Concrete stores and nodes used below -/

/-- A transfer from `sender` to `recipient`. -/
def transfer (sender recipient : String) : Transaction :=
  { Hash := "0xaa", BlockNumber := "0x64", From := sender, To := recipient, Value := "0x1" }

/-- Two subscriptions, at heights 100 and 105. -/
def twoSubscribers : MemoryDB :=
  { subscribers := [("a", { LastBlockNumber := 100, Transactions := [] }),
                    ("b", { LastBlockNumber := 105, Transactions := [] })] }

/-- A node at height 100 whose every block holds one transfer between two
addresses that are not subscribed. -/
def nodeAt100 : Chain :=
  { blockNumber := some "0x64",
    getBlockByNumber := fun _ => some { Hash := "0xb0", Transactions := [transfer "x" "y"] } }

/-- A node at height 107 whose every block holds one transfer between two
addresses that are not subscribed. -/
def nodeAt107 : Chain :=
  { blockNumber := some "0x6b",
    getBlockByNumber := fun _ => some { Hash := "0xb0", Transactions := [transfer "x" "y"] } }

/-- A node at height 107 whose blocks are all empty. -/
def emptyNodeAt107 : Chain :=
  { blockNumber := some "0x6b",
    getBlockByNumber := fun _ => some { Hash := "0xb0", Transactions := [] } }

/-- A node at height 100 whose every block holds one transfer sent by `b`. -/
def nodeAt100FromB : Chain :=
  { blockNumber := some "0x64",
    getBlockByNumber := fun _ => some { Hash := "0xb0", Transactions := [transfer "b" "y"] } }

/-- A store in which the empty address is subscribed at height 5. -/
def emptyKeyStore : MemoryDB :=
  { subscribers := [("", { LastBlockNumber := 5, Transactions := [] })] }

/-- A node at height 7 that serves blocks 5 and 6 (one contract creation each,
recipient empty) and fails at every other height. -/
def nodeFailingAt7 : Chain :=
  { blockNumber := some "0x7",
    getBlockByNumber := fun h =>
      if h = 5 ∨ h = 6 then some { Hash := "0xb0", Transactions := [transfer "x" ""] }
      else none }

/-- A store in which `a` is subscribed at height 0. -/
def heightZeroStore : MemoryDB :=
  { subscribers := [("a", { LastBlockNumber := 0, Transactions := [] })] }

/-- A node that reports height 0 and fails every block fetch. -/
def failingNodeAt0 : Chain :=
  { blockNumber := some "0x0", getBlockByNumber := fun _ => none }

/-- A node that reports height 0 and serves an empty block at every height. -/
def emptyNodeAt0 : Chain :=
  { blockNumber := some "0x0",
    getBlockByNumber := fun _ => some { Hash := "0xb0", Transactions := [] } }

/-- A node at height 5 that serves an empty block at every height. -/
def emptyNodeAt5 : Chain :=
  { blockNumber := some "0x5",
    getBlockByNumber := fun _ => some { Hash := "0xb0", Transactions := [] } }

/-- A node at height 1000 whose every block holds one transfer sent by `x`. -/
def nodeAt1000 : Chain :=
  { blockNumber := some "0x3e8",
    getBlockByNumber := fun _ => some { Hash := "0xb0", Transactions := [transfer "x" "y"] } }

/-- A node that reports height `2 ^ 64 - 1` and serves an empty block at every
height. -/
def nodeAtMaxUint64 : Chain :=
  { blockNumber := some "0xffffffffffffffff",
    getBlockByNumber := fun _ => some { Hash := "0xb0", Transactions := [] } }

/-- A store in which `a` is subscribed at height 5 with one stored transaction. -/
def storeWithHistory : MemoryDB :=
  { subscribers := [("a", { LastBlockNumber := 5, Transactions := [transfer "a" "y"] })] }

/-- A node at height 7 that serves blocks 5 and 6 (one transfer to `a`, one
between other addresses) and fails at height 7. -/
def nodeFailingAt7ForA : Chain :=
  { blockNumber := some "0x7",
    getBlockByNumber := fun h =>
      if h = 5 then some { Hash := "0xb5", Transactions := [transfer "x" "a", transfer "x" "y"] }
      else if h = 6 then some { Hash := "0xb6", Transactions := [transfer "a" "z"] }
      else none }

/-- A store in which `a` is subscribed at height 5 and has no stored transaction. -/
def subscribedAt5 : MemoryDB :=
  { subscribers := [("a", { LastBlockNumber := 5, Transactions := [] })] }

/-- A heap whose table 0 holds `a` at height 100. -/
def heapWithA : MapHeap :=
  fun r => if r = 0 then [("a", { LastBlockNumber := 100, Transactions := [] })] else []

/-- The store whose field is the map reference 0. -/
def storeRef0 : MemoryDBRef := { subscribers := 0 }

/-- A node at height 107 whose blocks up to 103 hold one transfer to `a` and
whose later blocks are empty. -/
def nodeQuietAfter103 : Chain :=
  { blockNumber := some "0x6b",
    getBlockByNumber := fun h =>
      if h ≤ 103 then some { Hash := "0xb0", Transactions := [transfer "x" "a"] }
      else some { Hash := "0xb1", Transactions := [] } }

/-- A node that answers `eth_blockNumber` with the empty string and fails
every block fetch. -/
def nodeWithEmptyReply : Chain :=
  { blockNumber := some "", getBlockByNumber := fun _ => none }

/-! ## Lemmas on the store, the parser and the two block loops -/

theorem mapGet_mapSet_self (m : Subscribers) (a : String) (d : TransactionData) :
    mapGet (mapSet m a d) a = some d := by
  induction m with
  | nil => simp [mapSet, mapGet]
  | cons e rest ih =>
    obtain ⟨k, v⟩ := e
    by_cases hk : k = a
    · simp [mapSet, mapGet, hk]
    · simp [mapSet, mapGet, hk, ih]

theorem mapGet_mapSet_ne (m : Subscribers) (a b : String) (d : TransactionData)
    (hne : b ≠ a) : mapGet (mapSet m a d) b = mapGet m b := by
  induction m with
  | nil => simp [mapSet, mapGet, Ne.symm hne]
  | cons e rest ih =>
    obtain ⟨k, v⟩ := e
    by_cases hk : k = a
    · subst hk
      simp [mapSet, mapGet, Ne.symm hne]
    · by_cases hb : k = b
      · subst hb
        simp [mapSet, mapGet, hk]
      · simp [mapSet, mapGet, hk, hb, ih]

theorem matchesInRange_succ (c : Chain) (a : String) (b n : Nat) :
    matchesInRange c a b (n + 1) = blockMatches c a b ++ matchesInRange c a (b + 1) n := by
  simp [matchesInRange, List.range'_succ]

theorem retrieveLoop_advance (c : Chain) (memory : MemoryDB) (a : String) (endBlock : Nat) :
    ∀ (n fuel b : Nat) (acc : List Transaction) (fetched : List Nat),
      b + n ≤ endBlock + 1 → b + n < 2 ^ 64 →
      (∀ h, b ≤ h → h < b + n → c.getBlockByNumber h ≠ none) →
      retrieveLoop c memory a endBlock (fuel + n) b acc fetched =
        retrieveLoop c memory a endBlock fuel (b + n)
          (acc ++ matchesInRange c a b n) (fetched ++ List.range' b n) := by
  intro n
  induction n with
  | zero => intro fuel b acc fetched _ _ _; simp [matchesInRange]
  | succ n ih =>
    intro fuel b acc fetched hend hlt hok
    have hb : b ≤ endBlock := by omega
    have hmod : (b + 1) % 2 ^ 64 = b + 1 := Nat.mod_eq_of_lt (by omega)
    obtain ⟨block, hblock⟩ := Option.ne_none_iff_exists'.mp (hok b (le_refl b) (by omega))
    have hstep : retrieveLoop c memory a endBlock (fuel + (n + 1)) b acc fetched =
        retrieveLoop c memory a endBlock (fuel + n) (b + 1)
          (acc ++ block.Transactions.filter (touches a)) (fetched ++ [b]) := by
      show retrieveLoop c memory a endBlock ((fuel + n) + 1) b acc fetched = _
      simp only [retrieveLoop, hb, if_true, hblock, hmod]
    rw [hstep, ih fuel (b + 1) _ _ (by omega) (by omega)
      (fun h h1 h2 => hok h (by omega) (by omega))]
    have e1 : b + 1 + n = b + (n + 1) := by omega
    simp [matchesInRange_succ, blockMatches, hblock, List.range'_succ, e1, List.append_assoc]


theorem retrieveLoop_exit (c : Chain) (memory : MemoryDB) (a : String) (endBlock : Nat)
    (fuel b : Nat) (acc : List Transaction) (fetched : List Nat) (hb : endBlock < b) :
    retrieveLoop c memory a endBlock (fuel + 1) b acc fetched =
      Run.done ⟨acc, (SetSubscriber memory a
        { LastBlockNumber := (endBlock + 1) % 2 ^ 64, Transactions := [] }).1, fetched⟩ := by
  simp [retrieveLoop, Nat.not_le.mpr hb]

theorem retrieveLoop_fail (c : Chain) (memory : MemoryDB) (a : String) (endBlock : Nat)
    (fuel b : Nat) (acc : List Transaction) (fetched : List Nat) (hb : b ≤ endBlock)
    (hfail : c.getBlockByNumber b = none) :
    retrieveLoop c memory a endBlock (fuel + 1) b acc fetched =
      Run.done ⟨acc, (SetSubscriber memory a
        { LastBlockNumber := b, Transactions := [] }).1, fetched ++ [b]⟩ := by
  simp [retrieveLoop, hb, hfail]

theorem retrieveTransactions_success (c : Chain) (memory : MemoryDB) (a : String)
    (fuel H C : Nat) (hHC : H ≤ C) (hC : C < maxUint64)
    (hok : ∀ h, H ≤ h → h ≤ C → c.getBlockByNumber h ≠ none) (hfuel : C + 2 - H ≤ fuel) :
    retrieveTransactions fuel c memory a H C =
      Run.done ⟨matchesInRange c a H (C + 1 - H),
        (SetSubscriber memory a { LastBlockNumber := C + 1, Transactions := [] }).1,
        List.range' H (C + 1 - H)⟩ := by
  have hC' : C + 1 < 2 ^ 64 := by unfold maxUint64 at hC; omega
  obtain ⟨k, rfl⟩ : ∃ k, fuel = (k + 1) + (C + 1 - H) := ⟨fuel - (C + 2 - H), by omega⟩
  unfold retrieveTransactions
  rw [retrieveLoop_advance c memory a C (C + 1 - H) (k + 1) H [] [] (by omega) (by omega)
    (fun h h1 h2 => hok h h1 (by omega))]
  have e : H + (C + 1 - H) = C + 1 := by omega
  rw [e, retrieveLoop_exit c memory a C k (C + 1) _ _ (by omega), Nat.mod_eq_of_lt hC']
  simp

theorem retrieveTransactions_failure (c : Chain) (memory : MemoryDB) (a : String)
    (fuel H f C : Nat) (hHf : H ≤ f) (hfC : f ≤ C) (hf : f < 2 ^ 64)
    (hok : ∀ h, H ≤ h → h < f → c.getBlockByNumber h ≠ none)
    (hfail : c.getBlockByNumber f = none) (hfuel : f + 1 - H ≤ fuel) :
    retrieveTransactions fuel c memory a H C =
      Run.done ⟨matchesInRange c a H (f - H),
        (SetSubscriber memory a { LastBlockNumber := f, Transactions := [] }).1,
        List.range' H (f + 1 - H)⟩ := by
  obtain ⟨k, rfl⟩ : ∃ k, fuel = (k + 1) + (f - H) := ⟨fuel - (f + 1 - H), by omega⟩
  unfold retrieveTransactions
  rw [retrieveLoop_advance c memory a C (f - H) (k + 1) H [] [] (by omega) (by omega)
    (fun h h1 h2 => hok h h1 (by omega))]
  have e : H + (f - H) = f := by omega
  rw [e, retrieveLoop_fail c memory a C k f _ _ hfC hfail]
  have e2 : f + 1 - H = (f - H) + 1 := by omega
  simp [e2, List.range'_concat, e]

theorem retrieveLoop_done_memory (c : Chain) (memory : MemoryDB) (a : String)
    (endBlock : Nat) :
    ∀ (fuel b : Nat) (acc : List Transaction) (fetched : List Nat)
      (out : Outcome (List Transaction)),
      retrieveLoop c memory a endBlock fuel b acc fetched = Run.done out →
      ∃ h, out.memory =
          (SetSubscriber memory a { LastBlockNumber := h, Transactions := [] }).1 ∧
        (endBlock < maxUint64 → b ≤ endBlock + 1 → b ≤ h ∧ h ≤ endBlock + 1) := by
  intro fuel
  induction fuel with
  | zero => intro b acc fetched out h; simp [retrieveLoop] at h
  | succ fuel ih =>
    intro b acc fetched out h
    by_cases hle : b ≤ endBlock
    · cases hblk : c.getBlockByNumber b with
      | none =>
        rw [retrieveLoop_fail c memory a endBlock fuel b acc fetched hle hblk] at h
        injection h with h
        exact ⟨b, by rw [← h], fun _ _ => ⟨le_refl b, by omega⟩⟩
      | some block =>
        simp only [retrieveLoop, hle, if_true, hblk] at h
        obtain ⟨h', h1, h2⟩ := ih _ _ _ out h
        refine ⟨h', h1, fun hend hb => ?_⟩
        have hmod : (b + 1) % 2 ^ 64 = b + 1 :=
          Nat.mod_eq_of_lt (by unfold maxUint64 at hend; omega)
        rw [hmod] at h2
        have := h2 hend (by omega)
        omega
    · rw [retrieveLoop_exit c memory a endBlock fuel b acc fetched (by omega)] at h
      injection h with h
      refine ⟨(endBlock + 1) % 2 ^ 64, by rw [← h], fun hend hb => ?_⟩
      rw [Nat.mod_eq_of_lt (by unfold maxUint64 at hend; omega)]
      exact ⟨hb, le_refl _⟩

theorem retrieveLoop_terminates (c : Chain) (memory : MemoryDB) (a : String)
    (endBlock : Nat) (hend : endBlock < maxUint64) :
    ∀ (fuel b : Nat) (acc : List Transaction) (fetched : List Nat),
      0 < fuel → endBlock + 2 - b ≤ fuel →
      ∃ out, retrieveLoop c memory a endBlock fuel b acc fetched = Run.done out := by
  have hend' : endBlock + 1 < 2 ^ 64 := by unfold maxUint64 at hend; omega
  intro fuel
  induction fuel with
  | zero => intro b acc fetched hb hf; omega
  | succ fuel ih =>
    intro b acc fetched hb hf
    by_cases hle : b ≤ endBlock
    · cases hblk : c.getBlockByNumber b with
      | none => exact ⟨_, retrieveLoop_fail c memory a endBlock fuel b acc fetched hle hblk⟩
      | some block =>
        have hmod : (b + 1) % 2 ^ 64 = b + 1 := Nat.mod_eq_of_lt (by omega)
        simp only [retrieveLoop, hle, if_true, hblk, hmod]
        exact ih (b + 1) _ _ (by omega) (by omega)
    · exact ⟨_, retrieveLoop_exit c memory a endBlock fuel b acc fetched (by omega)⟩

theorem retrieveLoop_diverges (c : Chain) (memory : MemoryDB) (a : String)
    (hok : ∀ h, c.getBlockByNumber h ≠ none) :
    ∀ (fuel b : Nat) (acc : List Transaction) (fetched : List Nat), b < 2 ^ 64 →
      retrieveLoop c memory a maxUint64 fuel b acc fetched = Run.outOfFuel := by
  intro fuel
  induction fuel with
  | zero => intro b acc fetched _; simp [retrieveLoop]
  | succ fuel ih =>
    intro b acc fetched hb
    have hle : b ≤ maxUint64 := by unfold maxUint64; omega
    obtain ⟨block, hblock⟩ := Option.ne_none_iff_exists'.mp (hok b)
    simp only [retrieveLoop, hle, if_true, hblock]
    exact ih _ _ _ (Nat.mod_lt _ (by norm_num))

theorem parseUintLoop_lt : ∀ (s : List Nat) (n r : Nat), n < 2 ^ 64 →
    parseUintLoop s n = some r → r < 2 ^ 64 := by
  intro s
  induction s with
  | nil => intro n r hn h; simp [parseUintLoop] at h; omega
  | cons ch rest ih =>
    intro n r hn h
    unfold parseUintLoop at h
    cases hd : hexDigit ch with
    | none => simp [hd] at h
    | some d =>
      simp only [hd] at h
      split at h
      · simp at h
      · split at h
        · simp at h
        · exact ih _ r (Nat.mod_lt _ (by norm_num)) h

theorem GetCurrentBlock_lt (c : Chain) (C : Nat) (h : GetCurrentBlock c = some C) :
    C < 2 ^ 64 := by
  unfold GetCurrentBlock at h
  cases hb : c.blockNumber with
  | none => simp [hb] at h; omega
  | some hex =>
    simp only [hb] at h
    cases hp : ParseHexUint64 hex with
    | panic => simp [hp] at h
    | error => simp [hp] at h; omega
    | value n =>
      simp only [hp, Option.some.injEq] at h
      subst h
      unfold ParseHexUint64 at hp
      split at hp
      · simp at hp
      · cases hs : strconvParseUint ((goBytes hex).drop 2) with
        | none => simp [hs] at hp
        | some r =>
          simp only [hs, ParseOutcome.value.injEq] at hp
          subst hp
          unfold strconvParseUint at hs
          split at hs
          · simp at hs
          · exact parseUintLoop_lt _ 0 r (by norm_num) hs

theorem ParseHexUint64_lt (hex : String) (C : Nat) (hp : ParseHexUint64 hex = ParseOutcome.value C) :
    C < 2 ^ 64 := by
  have := GetCurrentBlock_lt ⟨some hex, fun _ => none⟩ C (by simp [GetCurrentBlock, hp])
  exact this

theorem foldl_updateEntry (h : Nat) (a : String) :
    ∀ (ts : List Transaction) (d : TransactionData),
      ts.foldl (fun e t => updateEntry h t e) (a, d) = (a, entryAfterBlock h ts a d) := by
  intro ts
  induction ts using List.reverseRecOn with
  | nil => intro d; simp [entryAfterBlock]
  | append_singleton ts t ih =>
    intro d
    rw [List.foldl_append, ih]
    by_cases hts : ts = []
    · subst hts
      by_cases ht : touches a t <;> simp [updateEntry, entryAfterBlock, ht]
    · by_cases ht : touches a t <;> simp [updateEntry, entryAfterBlock, ht, hts]

theorem updateBlock_eq_map (h : Nat) :
    ∀ (ts : List Transaction) (subs : Subscribers),
      updateBlock h ts subs = subs.map (fun e => (e.1, entryAfterBlock h ts e.1 e.2)) := by
  intro ts
  induction ts using List.reverseRecOn with
  | nil => intro subs; simp [updateBlock, entryAfterBlock]
  | append_singleton ts t ih =>
    intro subs
    have : updateBlock h (ts ++ [t]) subs = (updateBlock h ts subs).map (updateEntry h t) := by
      simp [updateBlock, List.foldl_append]
    rw [this, ih, List.map_map]
    apply List.map_congr_left
    intro e _
    have h1 := foldl_updateEntry h e.1 (ts ++ [t]) e.2
    have h2 := foldl_updateEntry h e.1 ts e.2
    rw [List.foldl_append, h2] at h1
    simpa using h1

theorem mapGet_map_entry (f : String → TransactionData → TransactionData) (a : String) :
    ∀ (subs : Subscribers),
      mapGet (subs.map (fun e => (e.1, f e.1 e.2))) a = (mapGet subs a).map (f a) := by
  intro subs
  induction subs with
  | nil => simp [mapGet]
  | cons e rest ih =>
    obtain ⟨k, v⟩ := e
    by_cases hk : k = a
    · subst hk; simp [mapGet]
    · simp [mapGet, hk, ih]

theorem mapGet_updateBlock (h : Nat) (ts : List Transaction) (subs : Subscribers) (a : String) :
    mapGet (updateBlock h ts subs) a = (mapGet subs a).map (entryAfterBlock h ts a) := by
  rw [updateBlock_eq_map, mapGet_map_entry (fun k d => entryAfterBlock h ts k d)]

theorem updateSubscribersLoop_trace (c : Chain) (endBlock : Nat) :
    ∀ (fuel b : Nat) (subs : Subscribers) (fetched : List Nat)
      (out : Subscribers × List Nat),
      updateSubscribersLoop c endBlock fuel b subs fetched = Run.done out →
      ∃ hs : List Nat,
        out.1 = hs.foldl (fun s h => updateBlock h (blockTransactions c h) s) subs ∧
        (endBlock < maxUint64 → ∀ h ∈ hs, b ≤ h ∧ h ≤ endBlock) := by
  intro fuel
  induction fuel with
  | zero => intro b subs fetched out h; simp [updateSubscribersLoop] at h
  | succ fuel ih =>
    intro b subs fetched out h
    by_cases hle : b ≤ endBlock
    · cases hblk : c.getBlockByNumber b with
      | none =>
        simp only [updateSubscribersLoop, hle, if_true, hblk] at h
        injection h with h
        exact ⟨[], by simp [← h], by simp⟩
      | some block =>
        simp only [updateSubscribersLoop, hle, if_true, hblk] at h
        obtain ⟨hs, h1, h2⟩ := ih _ _ _ out h
        refine ⟨b :: hs, ?_, ?_⟩
        · simp [h1, blockTransactions, hblk]
        · intro hend x hx
          have hmod : (b + 1) % 2 ^ 64 = b + 1 :=
            Nat.mod_eq_of_lt (by unfold maxUint64 at hend; omega)
          rw [hmod] at h2
          rcases List.mem_cons.mp hx with rfl | hx
          · exact ⟨le_refl _, hle⟩
          · have := h2 hend x hx
            omega
    · simp only [updateSubscribersLoop, hle, if_false] at h
      injection h with h
      exact ⟨[], by simp [← h], by simp⟩

theorem updateSubscribersLoop_terminates (c : Chain) (endBlock : Nat)
    (hend : endBlock < maxUint64) :
    ∀ (fuel b : Nat) (subs : Subscribers) (fetched : List Nat),
      0 < fuel → endBlock + 2 - b ≤ fuel →
      ∃ out, updateSubscribersLoop c endBlock fuel b subs fetched = Run.done out := by
  have hend' : endBlock + 1 < 2 ^ 64 := by unfold maxUint64 at hend; omega
  intro fuel
  induction fuel with
  | zero => intro b subs fetched hb hf; omega
  | succ fuel ih =>
    intro b subs fetched hb hf
    by_cases hle : b ≤ endBlock
    · cases hblk : c.getBlockByNumber b with
      | none =>
        exact ⟨(subs, fetched ++ [b]), by simp only [updateSubscribersLoop, hle, if_true, hblk]⟩
      | some block =>
        have hmod : (b + 1) % 2 ^ 64 = b + 1 := Nat.mod_eq_of_lt (by omega)
        simp only [updateSubscribersLoop, hle, if_true, hblk, hmod]
        exact ih (b + 1) _ _ (by omega) (by omega)
    · exact ⟨(subs, fetched), by simp only [updateSubscribersLoop, hle, if_false]⟩

theorem mapGet_foldl_updateBlock (c : Chain) (a : String) :
    ∀ (hs : List Nat) (subs : Subscribers),
      mapGet (hs.foldl (fun s h => updateBlock h (blockTransactions c h) s) subs) a =
        (mapGet subs a).map (entryAfterBlocks c a hs) := by
  intro hs
  induction hs with
  | nil =>
    intro subs
    have hid : entryAfterBlocks c a [] = id := funext fun d => rfl
    simp [hid]
  | cons h hs ih =>
    intro subs
    rw [List.foldl_cons, ih, mapGet_updateBlock]
    cases mapGet subs a <;> simp [entryAfterBlocks]

theorem entryAfterBlocks_transactions (c : Chain) (a : String) :
    ∀ (hs : List Nat) (d : TransactionData),
      d.Transactions <+: (entryAfterBlocks c a hs d).Transactions := by
  intro hs
  induction hs with
  | nil => intro d; simp [entryAfterBlocks]
  | cons h hs ih =>
    intro d
    have h1 : d.Transactions <+: (entryAfterBlock h (blockTransactions c h) a d).Transactions := by
      unfold entryAfterBlock
      split
      · exact List.prefix_refl _
      · exact List.prefix_append _ _
    exact h1.trans (ih _)

theorem entryAfterBlocks_height (c : Chain) (a : String) :
    ∀ (hs : List Nat) (d : TransactionData),
      (entryAfterBlocks c a hs d).LastBlockNumber = d.LastBlockNumber ∨
        (entryAfterBlocks c a hs d).LastBlockNumber ∈ hs := by
  intro hs
  induction hs with
  | nil => intro d; simp [entryAfterBlocks]
  | cons h hs ih =>
    intro d
    have h1 : (entryAfterBlock h (blockTransactions c h) a d).LastBlockNumber = d.LastBlockNumber ∨
        (entryAfterBlock h (blockTransactions c h) a d).LastBlockNumber = h := by
      unfold entryAfterBlock
      split
      · exact Or.inl rfl
      · exact Or.inr rfl
    rcases ih (entryAfterBlock h (blockTransactions c h) a d) with h2 | h2
    · rcases h1 with h1 | h1
      · exact Or.inl (by simpa [entryAfterBlocks] using h2.trans h1)
      · exact Or.inr (List.mem_cons.mpr (Or.inl (by simpa [entryAfterBlocks] using h2.trans h1)))
    · exact Or.inr (List.mem_cons_of_mem _ (by simpa [entryAfterBlocks] using h2))

theorem foldl_min_le (l : Subscribers) :
    ∀ (init : Nat),
      l.foldl (fun m e => if e.2.LastBlockNumber < m then e.2.LastBlockNumber else m) init ≤ init ∧
      ∀ e ∈ l, l.foldl (fun m e => if e.2.LastBlockNumber < m then e.2.LastBlockNumber else m) init
        ≤ e.2.LastBlockNumber := by
  induction l with
  | nil => intro init; simp
  | cons x rest ih =>
    intro init
    simp only [List.foldl_cons]
    obtain ⟨h1, h2⟩ := ih (if x.2.LastBlockNumber < init then x.2.LastBlockNumber else init)
    by_cases hx : x.2.LastBlockNumber < init
    · simp only [hx, if_true] at h1 h2 ⊢
      refine ⟨by omega, ?_⟩
      intro e he
      rcases List.mem_cons.mp he with rfl | he
      · exact h1
      · exact h2 e he
    · simp only [hx, if_false] at h1 h2 ⊢
      refine ⟨h1, ?_⟩
      intro e he
      rcases List.mem_cons.mp he with rfl | he
      · omega
      · exact h2 e he

theorem mem_of_mapGet : ∀ (subs : Subscribers) (a : String) (d : TransactionData),
    mapGet subs a = some d → (a, d) ∈ subs := by
  intro subs
  induction subs with
  | nil => intro a d h; simp [mapGet] at h
  | cons e rest ih =>
    intro a d h
    obtain ⟨k, v⟩ := e
    by_cases hk : k = a
    · simp [mapGet, hk] at h
      simp [hk, h]
    · simp [mapGet, hk] at h
      exact List.mem_cons_of_mem _ (ih a d h)

theorem findMinBlockNumber_le (subs : Subscribers) (a : String) (d : TransactionData)
    (h : mapGet subs a = some d) : findMinBlockNumber subs ≤ d.LastBlockNumber :=
  (foldl_min_le subs maxUint64).2 (a, d) (mem_of_mapGet subs a d h)

theorem findMinBlockNumber_le_max (subs : Subscribers) : findMinBlockNumber subs ≤ maxUint64 :=
  (foldl_min_le subs maxUint64).1

theorem GetTransactions_scan (fuel : Nat) (c : Chain) (memory : MemoryDB) (address : String)
    (data : TransactionData) (C : Nat) (haddr : address ≠ "")
    (hsub : mapGet memory.subscribers address = some data)
    (hC : GetCurrentBlock c = some C) (hC0 : C ≠ 0) (hHC : data.LastBlockNumber ≤ C) :
    GetTransactions fuel c memory address =
      match retrieveTransactions fuel c memory address data.LastBlockNumber C with
      | Run.done out => Run.done ⟨some out.result, out.memory, out.fetched⟩
      | Run.panic => Run.panic
      | Run.outOfFuel => Run.outOfFuel := by
  simp [GetTransactions, haddr, IsSubscriber, GetSubscriber, hsub, hC, hC0, Nat.not_lt.mpr hHC]

theorem GetTransactions_cases (fuel : Nat) (c : Chain) (memory : MemoryDB) (address : String) :
    GetTransactions fuel c memory address = Run.done ⟨none, memory, []⟩ ∨
    GetTransactions fuel c memory address = Run.panic ∨
    ∃ data C, address ≠ "" ∧ mapGet memory.subscribers address = some data ∧
      GetCurrentBlock c = some C ∧ C ≠ 0 ∧ data.LastBlockNumber ≤ C := by
  by_cases haddr : address = ""
  · left; simp [GetTransactions, haddr]
  · cases hsub : mapGet memory.subscribers address with
    | none => left; simp [GetTransactions, haddr, IsSubscriber, hsub]
    | some data =>
      cases hC : GetCurrentBlock c with
      | none => right; left; simp [GetTransactions, haddr, IsSubscriber, hsub, hC]
      | some C =>
        by_cases hC0 : C = 0
        · left; simp [GetTransactions, haddr, IsSubscriber, hsub, hC, hC0]
        · by_cases hHC : data.LastBlockNumber ≤ C
          · right; right; exact ⟨data, C, haddr, rfl, rfl, hC0, hHC⟩
          · left
            simp [GetTransactions, haddr, IsSubscriber, GetSubscriber, hsub, hC, hC0,
              Nat.lt_of_not_le hHC]

theorem GetTransactions_done (fuel : Nat) (c : Chain) (memory : MemoryDB) (address : String)
    (out : Outcome (Option (List Transaction)))
    (h : GetTransactions fuel c memory address = Run.done out) :
    out = ⟨none, memory, []⟩ ∨
    ∃ data C r, address ≠ "" ∧ mapGet memory.subscribers address = some data ∧
      GetCurrentBlock c = some C ∧ C ≠ 0 ∧ data.LastBlockNumber ≤ C ∧
      retrieveTransactions fuel c memory address data.LastBlockNumber C = Run.done r ∧
      out = ⟨some r.result, r.memory, r.fetched⟩ := by
  rcases GetTransactions_cases fuel c memory address with h1 | h1 | ⟨data, C, haddr, hsub, hC, hC0, hHC⟩
  · rw [h1] at h; injection h with h; exact Or.inl h.symm
  · rw [h1] at h; cases h
  · right
    rw [GetTransactions_scan fuel c memory address data C haddr hsub hC hC0 hHC] at h
    cases hr : retrieveTransactions fuel c memory address data.LastBlockNumber C with
    | done r =>
      rw [hr] at h
      injection h with h
      exact ⟨data, C, r, haddr, hsub, hC, hC0, hHC, hr, h.symm⟩
    | panic => rw [hr] at h; cases h
    | outOfFuel => rw [hr] at h; cases h

theorem UpdateTransactionsData_done (fuel : Nat) (c : Chain) (memory : MemoryDB)
    (out : Outcome Unit) (h : UpdateTransactionsData fuel c memory = Run.done out) :
    out = ⟨(), memory, []⟩ ∨
    ∃ hex C r, c.blockNumber = some hex ∧ ParseHexUint64 hex = ParseOutcome.value C ∧
      findMinBlockNumber memory.subscribers ≠ maxUint64 ∧
      updateSubscribersData fuel c memory.subscribers
        (findMinBlockNumber memory.subscribers) C = Run.done r ∧
      out = ⟨(), { subscribers := r.1 }, r.2⟩ := by
  unfold UpdateTransactionsData GetSubscribers at h
  cases hb : c.blockNumber with
  | none => simp [hb] at h; exact Or.inl h.symm
  | some hex =>
    simp only [hb] at h
    cases hp : ParseHexUint64 hex with
    | panic => simp [hp] at h
    | error => simp [hp] at h; exact Or.inl h.symm
    | value C =>
      simp only [hp] at h
      by_cases hmin : findMinBlockNumber memory.subscribers = maxUint64
      · simp [hmin] at h; exact Or.inl h.symm
      · simp only [hmin, if_false] at h
        cases hr : updateSubscribersData fuel c memory.subscribers
            (findMinBlockNumber memory.subscribers) C with
        | done r =>
          rw [hr] at h
          obtain ⟨subs, fetched⟩ := r
          simp only [Run.done.injEq] at h
          exact Or.inr ⟨hex, C, (subs, fetched), rfl, hp, hmin, hr, h.symm⟩
        | panic => rw [hr] at h; cases h
        | outOfFuel => rw [hr] at h; cases h

theorem GetCurrentBlock_of_parse (c : Chain) (hex : String) (C : Nat)
    (hb : c.blockNumber = some hex) (hp : ParseHexUint64 hex = ParseOutcome.value C) :
    GetCurrentBlock c = some C := by
  simp [GetCurrentBlock, hb, hp]

theorem GetTransactions_returns (fuel : Nat) (c : Chain) (memory : MemoryDB) (address : String)
    (C : Nat) (hC : GetCurrentBlock c = some C) (hmax : C < maxUint64) (hfuel : C + 2 ≤ fuel) :
    ∃ out, GetTransactions fuel c memory address = Run.done out := by
  rcases GetTransactions_cases fuel c memory address with h1 | h1 | ⟨data, C', haddr, hsub, hC', hC0, hHC⟩
  · exact ⟨_, h1⟩
  · exfalso
    by_cases haddr : address = ""
    · simp [GetTransactions, haddr] at h1
    · cases hsub : mapGet memory.subscribers address with
      | none => simp [GetTransactions, haddr, IsSubscriber, hsub] at h1
      | some data =>
        simp only [GetTransactions, haddr, IsSubscriber, GetSubscriber, hsub, hC, if_false,
          Option.isSome_some] at h1
        split at h1
        · cases h1
        · split at h1
          · cases h1
          · obtain ⟨r, hr⟩ := retrieveLoop_terminates c memory address C hmax fuel
              data.LastBlockNumber [] [] (by omega) (by omega)
            unfold retrieveTransactions at h1
            rw [hr] at h1
            cases h1
  · rw [hC] at hC'
    injection hC' with hC'
    subst hC'
    obtain ⟨r, hr⟩ := retrieveLoop_terminates c memory address C hmax fuel
      data.LastBlockNumber [] [] (by omega) (by omega)
    rw [GetTransactions_scan fuel c memory address data C haddr hsub hC hC0 hHC]
    unfold retrieveTransactions
    rw [hr]
    exact ⟨_, rfl⟩

theorem UpdateTransactionsData_returns (fuel : Nat) (c : Chain) (memory : MemoryDB)
    (C : Nat) (hC : GetCurrentBlock c = some C) (hmax : C < maxUint64) (hfuel : C + 2 ≤ fuel) :
    ∃ out, UpdateTransactionsData fuel c memory = Run.done out := by
  cases hb : c.blockNumber with
  | none => exact ⟨⟨(), memory, []⟩, by simp [UpdateTransactionsData, GetSubscribers, hb]⟩
  | some hex =>
    cases hp : ParseHexUint64 hex with
    | panic => simp [GetCurrentBlock, hb, hp] at hC
    | error => exact ⟨⟨(), memory, []⟩, by simp [UpdateTransactionsData, GetSubscribers, hb, hp]⟩
    | value C' =>
      have hCC : C' = C := by
        have := GetCurrentBlock_of_parse c hex C' hb hp
        rw [hC] at this
        injection this with this
        exact this.symm
      subst hCC
      by_cases hmin : findMinBlockNumber memory.subscribers = maxUint64
      · exact ⟨⟨(), memory, []⟩, by simp [UpdateTransactionsData, GetSubscribers, hb, hp, hmin]⟩
      · obtain ⟨r, hr⟩ := updateSubscribersLoop_terminates c C' hmax fuel
          (findMinBlockNumber memory.subscribers) memory.subscribers [] (by omega) (by omega)
        exact ⟨⟨(), { subscribers := r.1 }, r.2⟩, by
          simp [UpdateTransactionsData, GetSubscribers, hb, hp, hmin, updateSubscribersData, hr]⟩

theorem retrieveLoop_fuel_mono (c : Chain) (memory : MemoryDB) (a : String) (endBlock : Nat) :
    ∀ (fuel fuel' b : Nat) (acc : List Transaction) (fetched : List Nat)
      (out : Outcome (List Transaction)), fuel ≤ fuel' →
      retrieveLoop c memory a endBlock fuel b acc fetched = Run.done out →
      retrieveLoop c memory a endBlock fuel' b acc fetched = Run.done out := by
  intro fuel
  induction fuel with
  | zero => intro fuel' b acc fetched out _ h; simp [retrieveLoop] at h
  | succ fuel ih =>
    intro fuel' b acc fetched out hle h
    obtain ⟨k, rfl⟩ : ∃ k, fuel' = k + 1 := ⟨fuel' - 1, by omega⟩
    by_cases hb : b ≤ endBlock
    · cases hblk : c.getBlockByNumber b with
      | none =>
        simp only [retrieveLoop, hb, if_true, hblk] at h ⊢
        exact h
      | some block =>
        simp only [retrieveLoop, hb, if_true, hblk] at h ⊢
        exact ih k _ _ _ out (by omega) h
    · simp only [retrieveLoop, hb, if_false] at h ⊢
      exact h

theorem updateSubscribersLoop_fuel_mono (c : Chain) (endBlock : Nat) :
    ∀ (fuel fuel' b : Nat) (subs : Subscribers) (fetched : List Nat)
      (out : Subscribers × List Nat), fuel ≤ fuel' →
      updateSubscribersLoop c endBlock fuel b subs fetched = Run.done out →
      updateSubscribersLoop c endBlock fuel' b subs fetched = Run.done out := by
  intro fuel
  induction fuel with
  | zero => intro fuel' b subs fetched out _ h; simp [updateSubscribersLoop] at h
  | succ fuel ih =>
    intro fuel' b subs fetched out hle h
    obtain ⟨k, rfl⟩ : ∃ k, fuel' = k + 1 := ⟨fuel' - 1, by omega⟩
    by_cases hb : b ≤ endBlock
    · cases hblk : c.getBlockByNumber b with
      | none =>
        simp only [updateSubscribersLoop, hb, if_true, hblk] at h ⊢
        exact h
      | some block =>
        simp only [updateSubscribersLoop, hb, if_true, hblk] at h ⊢
        exact ih k _ _ _ out (by omega) h
    · simp only [updateSubscribersLoop, hb, if_false] at h ⊢
      exact h

theorem GetTransactions_fuel_mono (fuel fuel' : Nat) (c : Chain) (memory : MemoryDB)
    (address : String) (out : Outcome (Option (List Transaction))) (hle : fuel ≤ fuel')
    (h : GetTransactions fuel c memory address = Run.done out) :
    GetTransactions fuel' c memory address = Run.done out := by
  rcases GetTransactions_cases fuel c memory address with h1 | h1 | ⟨data, C, haddr, hsub, hC, hC0, hHC⟩
  · have h2 : GetTransactions fuel' c memory address = Run.done ⟨none, memory, []⟩ := by
      rcases GetTransactions_cases fuel' c memory address with h3 | h3 | ⟨data, C, haddr, hsub, hC, hC0, hHC⟩
      · exact h3
      · exfalso
        by_cases haddr : address = ""
        · simp [GetTransactions, haddr] at h3
        · cases hsub : mapGet memory.subscribers address with
          | none => simp [GetTransactions, haddr, IsSubscriber, hsub] at h3
          | some data =>
            cases hC : GetCurrentBlock c with
            | none => simp [GetTransactions, haddr, IsSubscriber, hsub, hC] at h1
            | some C =>
              by_cases hC0 : C = 0
              · simp [GetTransactions, haddr, IsSubscriber, hsub, hC, hC0] at h3
              · by_cases hHC : data.LastBlockNumber ≤ C
                · rw [GetTransactions_scan fuel c memory address data C haddr hsub hC hC0 hHC] at h1
                  cases hr : retrieveTransactions fuel c memory address data.LastBlockNumber C with
                  | done r => rw [hr] at h1; simp at h1
                  | panic => rw [hr] at h1; cases h1
                  | outOfFuel => rw [hr] at h1; cases h1
                · simp [GetTransactions, haddr, IsSubscriber, GetSubscriber, hsub, hC, hC0,
                    Nat.lt_of_not_le hHC] at h3
      · exfalso
        rw [GetTransactions_scan fuel c memory address data C haddr hsub hC hC0 hHC] at h1
        cases hr : retrieveTransactions fuel c memory address data.LastBlockNumber C with
        | done r => rw [hr] at h1; simp at h1
        | panic => rw [hr] at h1; cases h1
        | outOfFuel => rw [hr] at h1; cases h1
    rw [h1] at h
    rw [h2, ← h]
  · rw [h1] at h; cases h
  · rw [GetTransactions_scan fuel c memory address data C haddr hsub hC hC0 hHC] at h
    rw [GetTransactions_scan fuel' c memory address data C haddr hsub hC hC0 hHC]
    cases hr : retrieveTransactions fuel c memory address data.LastBlockNumber C with
    | done r =>
      rw [hr] at h
      have := retrieveLoop_fuel_mono c memory address C fuel fuel' _ _ _ r hle hr
      unfold retrieveTransactions
      rw [this]
      exact h
    | panic => rw [hr] at h; cases h
    | outOfFuel => rw [hr] at h; cases h

theorem UpdateTransactionsData_fuel_mono (fuel fuel' : Nat) (c : Chain) (memory : MemoryDB)
    (out : Outcome Unit) (hle : fuel ≤ fuel')
    (h : UpdateTransactionsData fuel c memory = Run.done out) :
    UpdateTransactionsData fuel' c memory = Run.done out := by
  cases hb : c.blockNumber with
  | none =>
    simp only [UpdateTransactionsData, GetSubscribers, hb] at h ⊢
    exact h
  | some hex =>
    cases hp : ParseHexUint64 hex with
    | panic => simp [UpdateTransactionsData, GetSubscribers, hb, hp] at h
    | error =>
      simp only [UpdateTransactionsData, GetSubscribers, hb, hp] at h ⊢
      exact h
    | value C =>
      by_cases hmin : findMinBlockNumber memory.subscribers = maxUint64
      · simp only [UpdateTransactionsData, GetSubscribers, hb, hp, hmin, if_true] at h ⊢
        exact h
      · simp only [UpdateTransactionsData, GetSubscribers, hb, hp, hmin, if_false,
          updateSubscribersData] at h ⊢
        cases hr : updateSubscribersLoop c C fuel (findMinBlockNumber memory.subscribers)
            memory.subscribers [] with
        | done r =>
          rw [hr] at h
          rw [updateSubscribersLoop_fuel_mono c C fuel fuel' _ _ _ r hle hr]
          exact h
        | panic => rw [hr] at h; cases h
        | outOfFuel => rw [hr] at h; cases h

theorem mapSet_append_of_not_mem (l₁ l₂ : Subscribers) (k : String) (v d : TransactionData)
    (hk : k ∉ l₁.map Prod.fst) :
    mapSet (l₁ ++ (k, v) :: l₂) k d = l₁ ++ (k, d) :: l₂ := by
  induction l₁ with
  | nil => simp [mapSet]
  | cons e rest ih =>
    obtain ⟨k', v'⟩ := e
    have hne : k' ≠ k := fun h => hk (by simp [h])
    have hrest : k ∉ rest.map Prod.fst := fun h => hk (by simp [List.mem_map] at h ⊢; exact Or.inr h)
    simp [mapSet, hne, ih hrest]

theorem rangeAssign_eq_map (blockNumber : Nat) (transaction : Transaction)
    (subscribers : Subscribers) (hwf : subscribers.WF) :
    rangeAssign blockNumber transaction subscribers =
      subscribers.map (updateEntry blockNumber transaction) := by
  have key : ∀ (l₂ l₁ : Subscribers), ((l₁ ++ l₂).map Prod.fst).Nodup →
      l₂.foldl
        (fun subs entry => mapSet subs entry.1 (updateEntry blockNumber transaction entry).2)
        (l₁.map (updateEntry blockNumber transaction) ++ l₂) =
      (l₁ ++ l₂).map (updateEntry blockNumber transaction) := by
    intro l₂
    induction l₂ with
    | nil => intro l₁ _; simp
    | cons e rest ih =>
      intro l₁ hnd
      obtain ⟨k, v⟩ := e
      have hk : k ∉ (l₁.map (updateEntry blockNumber transaction)).map Prod.fst := by
        intro hmem
        rw [List.map_append, List.nodup_append] at hnd
        have hmem' : k ∈ l₁.map Prod.fst := by
          simpa [List.mem_map, updateEntry] using hmem
        exact hnd.2.2 hmem' (by simp)
      rw [List.foldl_cons, mapSet_append_of_not_mem _ _ _ _ _ hk]
      have h2 := ih (l₁ ++ [(k, v)]) (by simpa using hnd)
      simpa [updateEntry] using h2
  have := key subscribers [] (by simpa [Subscribers.WF] using hwf)
  simpa [rangeAssign] using this

theorem WF_map_updateEntry (blockNumber : Nat) (transaction : Transaction)
    (subscribers : Subscribers) (hwf : subscribers.WF) :
    Subscribers.WF (subscribers.map (updateEntry blockNumber transaction)) := by
  have : (subscribers.map (updateEntry blockNumber transaction)).map Prod.fst =
      subscribers.map Prod.fst := by
    simp [List.map_map, Function.comp_def, updateEntry]
  simpa [Subscribers.WF, this] using hwf

theorem WF_updateBlock (blockNumber : Nat) :
    ∀ (transactions : List Transaction) (subscribers : Subscribers), subscribers.WF →
      Subscribers.WF (updateBlock blockNumber transactions subscribers) := by
  intro transactions
  induction transactions with
  | nil => intro subscribers h; simpa [updateBlock] using h
  | cons t ts ih =>
    intro subscribers h
    have := ih _ (WF_map_updateEntry blockNumber t subscribers h)
    simpa [updateBlock] using this

theorem keys_mapSet (m : Subscribers) (a : String) (d : TransactionData) :
    (mapSet m a d).map Prod.fst =
      if a ∈ m.map Prod.fst then m.map Prod.fst else m.map Prod.fst ++ [a] := by
  induction m with
  | nil => simp [mapSet]
  | cons e rest ih =>
    obtain ⟨k, v⟩ := e
    by_cases hk : k = a
    · simp [mapSet, hk]
    · have hne : a ≠ k := fun h => hk h.symm
      by_cases hmem : a ∈ rest.map Prod.fst
      · simp only [mapSet, hk, if_false, List.map_cons, ih, hmem, if_true, List.mem_cons, or_true]
      · simp only [mapSet, hk, if_false, List.map_cons, ih, hmem, List.mem_cons, hne, or_self,
          List.cons_append]

theorem WF_mapSet (m : Subscribers) (a : String) (d : TransactionData) (hwf : m.WF) :
    Subscribers.WF (mapSet m a d) := by
  unfold Subscribers.WF at hwf ⊢
  rw [keys_mapSet]
  split
  · exact hwf
  · rename_i hmem
    rw [List.nodup_append]
    exact ⟨hwf, by simp, by
      intro x hx hx'
      simp at hx'
      exact hmem (hx' ▸ hx)⟩

/-! ## Lemmas on deletion, the minimum and the hexadecimal encoding -/

theorem mapGet_mapDelete_self (m : Subscribers) (a : String) :
    mapGet (mapDelete m a) a = none := by
  induction m with
  | nil => simp [mapDelete, mapGet]
  | cons e rest ih =>
    obtain ⟨k, v⟩ := e
    by_cases hk : k = a
    · simp [mapDelete, hk, ih]
    · simp [mapDelete, mapGet, hk, ih]

theorem mapGet_mapDelete_ne (m : Subscribers) (a b : String) (hne : b ≠ a) :
    mapGet (mapDelete m a) b = mapGet m b := by
  induction m with
  | nil => simp [mapDelete, mapGet]
  | cons e rest ih =>
    obtain ⟨k, v⟩ := e
    by_cases hk : k = a
    · subst hk
      simp [mapDelete, mapGet, Ne.symm hne, ih]
    · by_cases hb : k = b
      · subst hb
        simp [mapDelete, mapGet, hk]
      · simp [mapDelete, mapGet, hk, hb, ih]

theorem mapDelete_idem (m : Subscribers) (a : String) :
    mapDelete (mapDelete m a) a = mapDelete m a := by
  induction m with
  | nil => simp [mapDelete]
  | cons e rest ih =>
    obtain ⟨k, v⟩ := e
    by_cases hk : k = a
    · simp [mapDelete, hk, ih]
    · simp [mapDelete, hk, ih]

theorem foldl_min_mem (l : Subscribers) :
    ∀ (init : Nat),
      l.foldl (fun m e => if e.2.LastBlockNumber < m then e.2.LastBlockNumber else m) init = init ∨
      ∃ e ∈ l, l.foldl (fun m e => if e.2.LastBlockNumber < m then e.2.LastBlockNumber else m) init
        = e.2.LastBlockNumber := by
  induction l with
  | nil => intro init; simp
  | cons x rest ih =>
    intro init
    simp only [List.foldl_cons]
    by_cases hx : x.2.LastBlockNumber < init
    · simp only [hx, if_true]
      rcases ih x.2.LastBlockNumber with h | ⟨e, he, h⟩
      · exact Or.inr ⟨x, List.mem_cons_self _ _, h⟩
      · exact Or.inr ⟨e, List.mem_cons_of_mem _ he, h⟩
    · simp only [hx, if_false]
      rcases ih init with h | ⟨e, he, h⟩
      · exact Or.inl h
      · exact Or.inr ⟨e, List.mem_cons_of_mem _ he, h⟩

theorem hexDigitsLoop_small (fuel u : Nat) (hu : u < 16) : hexDigitsLoop fuel u = [u] := by
  cases fuel with
  | zero => rfl
  | succ f => simp [hexDigitsLoop, Nat.not_le.mpr hu]

theorem hexDigitsLoop_fuel : ∀ (u fuel : Nat), u ≤ fuel →
    hexDigitsLoop fuel u = if 16 ≤ u then hexDigits (u / 16) ++ [u % 16] else [u] := by
  intro u
  induction u using Nat.strong_induction_on with
  | _ u ih =>
    intro fuel hfuel
    by_cases hu : 16 ≤ u
    · obtain ⟨f, rfl⟩ : ∃ f, fuel = f + 1 := ⟨fuel - 1, by omega⟩
      have hdiv : u / 16 < u := Nat.div_lt_self (by omega) (by norm_num)
      have h1 := ih (u / 16) hdiv f (by omega)
      have h2 := ih (u / 16) hdiv (u / 16) (le_refl _)
      simp only [hexDigitsLoop, hu, if_true]
      rw [hexDigits, h2, ← h1]
    · simp only [hu, if_false]
      exact hexDigitsLoop_small fuel u (by omega)

theorem hexDigits_eq (u : Nat) :
    hexDigits u = if 16 ≤ u then hexDigits (u / 16) ++ [u % 16] else [u] :=
  hexDigitsLoop_fuel u u (le_refl u)

theorem hexDigits_lt : ∀ (u d : Nat), d ∈ hexDigits u → d < 16 := by
  intro u
  induction u using Nat.strong_induction_on with
  | _ u ih =>
    intro d hd
    rw [hexDigits_eq] at hd
    by_cases hu : 16 ≤ u
    · simp only [hu, if_true, List.mem_append, List.mem_singleton] at hd
      rcases hd with hd | hd
      · exact ih (u / 16) (Nat.div_lt_self (by omega) (by norm_num)) d hd
      · rw [hd]; exact Nat.mod_lt _ (by norm_num)
    · simp only [hu, if_false, List.mem_singleton] at hd
      omega

theorem hexDigits_ne_nil (u : Nat) : hexDigits u ≠ [] := by
  rw [hexDigits_eq]
  split <;> simp

theorem goBytes_append (s t : String) : goBytes (s ++ t) = goBytes s ++ goBytes t := by
  simp [goBytes, String.data_append]

theorem goBytes_hexChar (d : Nat) (hd : d < 16) :
    goBytes (String.mk [hexChar d]) = [if d < 10 then 48 + d else 87 + d] := by
  interval_cases d <;> rfl

theorem goBytes_hexChars : ∀ (l : List Nat), (∀ d ∈ l, d < 16) →
    goBytes (String.mk (l.map hexChar)) = l.map (fun d => if d < 10 then 48 + d else 87 + d) := by
  intro l
  induction l with
  | nil => intro _; rfl
  | cons d rest ih =>
    intro h
    have h1 := goBytes_hexChar d (h d (List.mem_cons_self _ _))
    have h2 := ih (fun x hx => h x (List.mem_cons_of_mem _ hx))
    have happ : String.mk ((d :: rest).map hexChar) =
        String.mk [hexChar d] ++ String.mk (rest.map hexChar) := by
      apply String.ext
      simp [String.data_append]
    rw [happ, goBytes_append, h1, h2]
    simp

theorem hexDigit_hexByte (d : Nat) (hd : d < 16) :
    hexDigit (if d < 10 then 48 + d else 87 + d) = some d := by
  interval_cases d <;> decide

theorem parseUintLoop_append : ∀ (l₁ l₂ : List Nat) (n : Nat),
    parseUintLoop (l₁ ++ l₂) n = (parseUintLoop l₁ n).bind (parseUintLoop l₂) := by
  intro l₁
  induction l₁ with
  | nil => intro l₂ n; simp [parseUintLoop]
  | cons c rest ih =>
    intro l₂ n
    simp only [List.cons_append, parseUintLoop]
    cases hexDigit c with
    | none => simp
    | some d =>
      simp only
      split
      · simp
      · split
        · simp
        · exact ih l₂ _

theorem parseUintLoop_digit (n d : Nat) (hd : d < 16) (hn : n * 16 + d < 2 ^ 64) :
    parseUintLoop [if d < 10 then 48 + d else 87 + d] n = some (n * 16 + d) := by
  have h1 : ¬ 2 ^ 60 ≤ n := by omega
  have h2 : (n * 16 + d) % 2 ^ 64 = n * 16 + d := Nat.mod_eq_of_lt hn
  have h3 : ¬ (n * 16 + d < n * 16 ∨ maxUint64 < n * 16 + d) := by
    unfold maxUint64
    omega
  simp only [parseUintLoop, hexDigit_hexByte d hd, h1, if_false, h2, h3]

theorem parseUintLoop_hexDigits : ∀ (u : Nat), u < 2 ^ 64 →
    parseUintLoop ((hexDigits u).map (fun d => if d < 10 then 48 + d else 87 + d)) 0 =
      some u := by
  intro u
  induction u using Nat.strong_induction_on with
  | _ u ih =>
    intro hu
    rw [hexDigits_eq]
    by_cases h16 : 16 ≤ u
    · simp only [h16, if_true, List.map_append, List.map_cons, List.map_nil]
      rw [parseUintLoop_append,
        ih (u / 16) (Nat.div_lt_self (by omega) (by norm_num)) (by omega)]
      simp only [Option.some_bind]
      rw [parseUintLoop_digit (u / 16) (u % 16) (Nat.mod_lt _ (by norm_num)) (by omega)]
      congr 1
      omega
    · simp only [h16, if_false, List.map_cons, List.map_nil]
      rw [parseUintLoop_digit 0 u (by omega) (by omega)]
      simp

theorem goBytes_sprintfHex (n : Nat) :
    goBytes (sprintfHex n) =
      48 :: 120 :: (hexDigits n).map (fun d => if d < 10 then 48 + d else 87 + d) := by
  unfold sprintfHex
  rw [goBytes_append, goBytes_hexChars _ (hexDigits_lt n)]
  rfl

theorem ParseHexUint64_sprintfHex (n : Nat) (hn : n < 2 ^ 64) :
    ParseHexUint64 (sprintfHex n) = ParseOutcome.value n := by
  have hne : (hexDigits n).map (fun d => if d < 10 then 48 + d else 87 + d) ≠ [] := by
    simpa using hexDigits_ne_nil n
  unfold ParseHexUint64
  rw [goBytes_sprintfHex]
  simp [strconvParseUint, hne, parseUintLoop_hexDigits n hn]

theorem GetTransactions_full_success_out (fuel : Nat) (c : Chain) (memory : MemoryDB)
    (address : String) (data : TransactionData) (C : Nat)
    (out : Outcome (Option (List Transaction)))
    (hsub : mapGet memory.subscribers address = some data)
    (hC : GetCurrentBlock c = some C) (hmax : C < maxUint64)
    (hok : ∀ h, data.LastBlockNumber ≤ h → h ≤ C → c.getBlockByNumber h ≠ none)
    (hrun : GetTransactions fuel c memory address = Run.done out)
    (hres : out.result ≠ none) :
    address ≠ "" ∧ C ≠ 0 ∧ data.LastBlockNumber ≤ C ∧
      out = ⟨some (matchesInRange c address data.LastBlockNumber
          (C + 1 - data.LastBlockNumber)),
        (SetSubscriber memory address ⟨C + 1, []⟩).1,
        List.range' data.LastBlockNumber (C + 1 - data.LastBlockNumber)⟩ := by
  rcases GetTransactions_done fuel c memory address out hrun with rfl | ⟨dq, C', r, haddr, hq, hC', hC0, hHC, hr, rfl⟩
  · exact absurd rfl hres
  · rw [hsub] at hq
    injection hq with hq
    subst hq
    rw [hC] at hC'
    injection hC' with hC'
    subst hC'
    refine ⟨haddr, hC0, hHC, ?_⟩
    have h1 := retrieveLoop_fuel_mono c memory address C fuel
      (fuel + (C + 2 - data.LastBlockNumber)) data.LastBlockNumber [] [] r (by omega) hr
    have h2 := retrieveTransactions_success c memory address
      (fuel + (C + 2 - data.LastBlockNumber)) data.LastBlockNumber C hHC hmax hok (by omega)
    unfold retrieveTransactions at h2
    rw [h1] at h2
    injection h2 with h2
    rw [h2]

theorem blockMatches_eq_filter (c : Chain) (a : String) (h : Nat) :
    blockMatches c a h = (blockTransactions c h).filter (touches a) := by
  unfold blockMatches blockTransactions
  cases c.getBlockByNumber h <;> simp

theorem blockMatches_of_fail (c : Chain) (a : String) (h : Nat)
    (hfail : c.getBlockByNumber h = none) : blockMatches c a h = [] := by
  simp [blockMatches, hfail]

theorem wrapHeights_succ (b n : Nat) (hb : b < 2 ^ 64) :
    wrapHeights b (n + 1) = b :: wrapHeights ((b + 1) % 2 ^ 64) n := by
  unfold wrapHeights
  rw [List.range_succ_eq_map]
  simp only [List.map_cons, List.map_map, Nat.add_zero, Nat.mod_eq_of_lt hb]
  congr 1
  apply List.map_congr_left
  intro i _
  simp only [Function.comp_apply]
  omega

theorem wrapHeights_nodup (P : Nat → Prop) (b n : Nat)
    (hP : ∀ h ∈ wrapHeights b n, P h) (hexit : ¬ P ((b + n) % 2 ^ 64)) :
    (wrapHeights b n).Nodup ∧ (b + n) % 2 ^ 64 ∉ wrapHeights b n := by
  refine ⟨?_, fun hmem => hexit (hP _ hmem)⟩
  unfold wrapHeights
  have hno : ∀ i j, i < j → j < n → (b + i) % 2 ^ 64 ≠ (b + j) % 2 ^ 64 := by
    intro i j hij hjn heq
    apply hexit
    have hk : (b + (n - (j - i))) % 2 ^ 64 = (b + n) % 2 ^ 64 := by omega
    rw [← hk]
    apply hP
    unfold wrapHeights
    exact List.mem_map.mpr ⟨n - (j - i), List.mem_range.mpr (by omega), rfl⟩
  apply List.Nodup.map_on _ (List.nodup_range n)
  intro i hi j hj heq
  rw [List.mem_range] at hi hj
  rcases Nat.lt_trichotomy i j with hlt | heq' | hgt
  · exact absurd heq (hno i j hlt hj)
  · exact heq'
  · exact absurd heq.symm (hno j i hgt hi)

theorem retrieveLoop_wrap_trace (c : Chain) (memory : MemoryDB) (a : String)
    (endBlock : Nat) :
    ∀ (fuel b : Nat) (acc : List Transaction) (fetched : List Nat)
      (out : Outcome (List Transaction)), b < 2 ^ 64 →
      retrieveLoop c memory a endBlock fuel b acc fetched = Run.done out →
      ∃ n, (∀ h ∈ wrapHeights b n, h ≤ endBlock ∧ c.getBlockByNumber h ≠ none) ∧
        ¬ ((b + n) % 2 ^ 64 ≤ endBlock ∧ c.getBlockByNumber ((b + n) % 2 ^ 64) ≠ none) ∧
        out.result = acc ++ (wrapHeights b n).flatMap (blockMatches c a) ∧
        (out.fetched = fetched ++ wrapHeights b n ∨
          (c.getBlockByNumber ((b + n) % 2 ^ 64) = none ∧
            out.fetched = fetched ++ wrapHeights b n ++ [(b + n) % 2 ^ 64])) := by
  intro fuel
  induction fuel with
  | zero => intro b acc fetched out _ h; simp [retrieveLoop] at h
  | succ fuel ih =>
    intro b acc fetched out hb h
    have hb0 : (b + 0) % 2 ^ 64 = b := by simpa using Nat.mod_eq_of_lt hb
    by_cases hle : b ≤ endBlock
    · cases hblk : c.getBlockByNumber b with
      | none =>
        rw [retrieveLoop_fail c memory a endBlock fuel b acc fetched hle hblk] at h
        injection h with h
        subst h
        refine ⟨0, by simp [wrapHeights], ?_, by simp [wrapHeights], Or.inr ?_⟩
        · rw [hb0]; simp [hblk]
        · rw [hb0]; exact ⟨hblk, by simp [wrapHeights]⟩
      | some block =>
        simp only [retrieveLoop, hle, if_true, hblk] at h
        obtain ⟨n, h1, h2, h3, h4⟩ := ih _ _ _ out (Nat.mod_lt _ (by norm_num)) h
        have hmod : ((b + 1) % 2 ^ 64 + n) % 2 ^ 64 = (b + (n + 1)) % 2 ^ 64 := by omega
        rw [hmod] at h2 h4
        refine ⟨n + 1, ?_, h2, ?_, ?_⟩
        · intro x hx
          rw [wrapHeights_succ b n hb] at hx
          rcases List.mem_cons.mp hx with rfl | hx
          · exact ⟨hle, by simp [hblk]⟩
          · exact h1 x hx
        · rw [h3, wrapHeights_succ b n hb]
          simp [blockMatches, hblk, List.append_assoc]
        · rw [wrapHeights_succ b n hb]
          rcases h4 with h4 | ⟨h4, h5⟩
          · exact Or.inl (by simp [h4, List.append_assoc])
          · exact Or.inr ⟨h4, by simp [h5, List.append_assoc]⟩
    · rw [retrieveLoop_exit c memory a endBlock fuel b acc fetched (by omega)] at h
      injection h with h
      subst h
      refine ⟨0, by simp [wrapHeights], ?_, by simp [wrapHeights], Or.inl (by simp [wrapHeights])⟩
      rw [hb0]
      exact fun hcon => hle hcon.1

theorem updateSubscribersLoop_wrap_trace (c : Chain) (endBlock : Nat) :
    ∀ (fuel b : Nat) (subs : Subscribers) (fetched : List Nat)
      (out : Subscribers × List Nat), b < 2 ^ 64 →
      updateSubscribersLoop c endBlock fuel b subs fetched = Run.done out →
      ∃ n, (∀ h ∈ wrapHeights b n, h ≤ endBlock ∧ c.getBlockByNumber h ≠ none) ∧
        ¬ ((b + n) % 2 ^ 64 ≤ endBlock ∧ c.getBlockByNumber ((b + n) % 2 ^ 64) ≠ none) ∧
        out.1 = (wrapHeights b n).foldl
          (fun s h => updateBlock h (blockTransactions c h) s) subs ∧
        (out.2 = fetched ++ wrapHeights b n ∨
          (c.getBlockByNumber ((b + n) % 2 ^ 64) = none ∧
            out.2 = fetched ++ wrapHeights b n ++ [(b + n) % 2 ^ 64])) := by
  intro fuel
  induction fuel with
  | zero => intro b subs fetched out _ h; simp [updateSubscribersLoop] at h
  | succ fuel ih =>
    intro b subs fetched out hb h
    have hb0 : (b + 0) % 2 ^ 64 = b := by simpa using Nat.mod_eq_of_lt hb
    by_cases hle : b ≤ endBlock
    · cases hblk : c.getBlockByNumber b with
      | none =>
        simp only [updateSubscribersLoop, hle, if_true, hblk] at h
        injection h with h
        subst h
        refine ⟨0, by simp [wrapHeights], ?_, by simp [wrapHeights], Or.inr ?_⟩
        · rw [hb0]; simp [hblk]
        · rw [hb0]; exact ⟨hblk, by simp [wrapHeights]⟩
      | some block =>
        simp only [updateSubscribersLoop, hle, if_true, hblk] at h
        obtain ⟨n, h1, h2, h3, h4⟩ := ih _ _ _ out (Nat.mod_lt _ (by norm_num)) h
        have hmod : ((b + 1) % 2 ^ 64 + n) % 2 ^ 64 = (b + (n + 1)) % 2 ^ 64 := by omega
        rw [hmod] at h2 h4
        refine ⟨n + 1, ?_, h2, ?_, ?_⟩
        · intro x hx
          rw [wrapHeights_succ b n hb] at hx
          rcases List.mem_cons.mp hx with rfl | hx
          · exact ⟨hle, by simp [hblk]⟩
          · exact h1 x hx
        · rw [h3, wrapHeights_succ b n hb]
          simp [blockTransactions, hblk]
        · rw [wrapHeights_succ b n hb]
          rcases h4 with h4 | ⟨h4, h5⟩
          · exact Or.inl (by simp [h4, List.append_assoc])
          · exact Or.inr ⟨h4, by simp [h5, List.append_assoc]⟩
    · simp only [updateSubscribersLoop, hle, if_false] at h
      injection h with h
      subst h
      refine ⟨0, by simp [wrapHeights], ?_, by simp [wrapHeights], Or.inl (by simp [wrapHeights])⟩
      rw [hb0]
      exact fun hcon => hle hcon.1

theorem entryAfterBlocks_transactions_eq (c : Chain) (a : String) :
    ∀ (hs : List Nat) (d : TransactionData),
      (entryAfterBlocks c a hs d).Transactions =
        d.Transactions ++ hs.flatMap (blockMatches c a) := by
  intro hs
  induction hs with
  | nil => intro d; simp [entryAfterBlocks]
  | cons h hs ih =>
    intro d
    have h1 : (entryAfterBlock h (blockTransactions c h) a d).Transactions =
        d.Transactions ++ blockMatches c a h := by
      rw [blockMatches_eq_filter]
      unfold entryAfterBlock
      split
      · rename_i hnil; simp [hnil]
      · rfl
    have h2 := ih (entryAfterBlock h (blockTransactions c h) a d)
    simp only [entryAfterBlocks, List.foldl_cons] at h2 ⊢
    rw [h2, h1]
    simp [List.append_assoc]

theorem updateSubscribersLoop_advance (c : Chain) (endBlock : Nat) :
    ∀ (n fuel b : Nat) (subs : Subscribers) (fetched : List Nat),
      b + n ≤ endBlock + 1 → b + n < 2 ^ 64 →
      (∀ h, b ≤ h → h < b + n → c.getBlockByNumber h ≠ none) →
      updateSubscribersLoop c endBlock (fuel + n) b subs fetched =
        updateSubscribersLoop c endBlock fuel (b + n)
          ((List.range' b n).foldl (fun s h => updateBlock h (blockTransactions c h) s) subs)
          (fetched ++ List.range' b n) := by
  intro n
  induction n with
  | zero => intro fuel b subs fetched _ _ _; simp
  | succ n ih =>
    intro fuel b subs fetched hend hlt hok
    have hb : b ≤ endBlock := by omega
    have hmod : (b + 1) % 2 ^ 64 = b + 1 := Nat.mod_eq_of_lt (by omega)
    obtain ⟨block, hblock⟩ := Option.ne_none_iff_exists'.mp (hok b (le_refl b) (by omega))
    have hstep : updateSubscribersLoop c endBlock (fuel + (n + 1)) b subs fetched =
        updateSubscribersLoop c endBlock (fuel + n) (b + 1)
          (updateBlock b block.Transactions subs) (fetched ++ [b]) := by
      show updateSubscribersLoop c endBlock ((fuel + n) + 1) b subs fetched = _
      simp only [updateSubscribersLoop, hb, if_true, hblock, hmod]
    rw [hstep, ih fuel (b + 1) _ _ (by omega) (by omega)
      (fun h h1 h2 => hok h (by omega) (by omega))]
    have e1 : b + 1 + n = b + (n + 1) := by omega
    simp [blockTransactions, hblock, List.range'_succ, e1, List.append_assoc]

theorem updateSubscribersData_success (c : Chain) (subs : Subscribers)
    (fuel startBlock endBlock : Nat) (hrange : startBlock ≤ endBlock)
    (hmax : endBlock < maxUint64)
    (hok : ∀ h, startBlock ≤ h → h ≤ endBlock → c.getBlockByNumber h ≠ none)
    (hfuel : endBlock + 2 - startBlock ≤ fuel) :
    updateSubscribersData fuel c subs startBlock endBlock =
      Run.done ((List.range' startBlock (endBlock + 1 - startBlock)).foldl
          (fun s h => updateBlock h (blockTransactions c h) s) subs,
        List.range' startBlock (endBlock + 1 - startBlock)) := by
  have hC' : endBlock + 1 < 2 ^ 64 := by unfold maxUint64 at hmax; omega
  obtain ⟨k, rfl⟩ : ∃ k, fuel = (k + 1) + (endBlock + 1 - startBlock) :=
    ⟨fuel - (endBlock + 2 - startBlock), by omega⟩
  unfold updateSubscribersData
  rw [updateSubscribersLoop_advance c endBlock (endBlock + 1 - startBlock) (k + 1) startBlock
    subs [] (by omega) (by omega) (fun h h1 h2 => hok h h1 (by omega))]
  have e : startBlock + (endBlock + 1 - startBlock) = endBlock + 1 := by omega
  rw [e]
  simp [updateSubscribersLoop]

theorem entryAfterBlocks_append (c : Chain) (a : String) (l₁ l₂ : List Nat)
    (d : TransactionData) :
    entryAfterBlocks c a (l₁ ++ l₂) d = entryAfterBlocks c a l₂ (entryAfterBlocks c a l₁ d) := by
  simp [entryAfterBlocks, List.foldl_append]

theorem entryAfterBlocks_of_empty (c : Chain) (a : String) :
    ∀ (hs : List Nat) (d : TransactionData), (∀ h ∈ hs, blockTransactions c h = []) →
      entryAfterBlocks c a hs d = d := by
  intro hs
  induction hs with
  | nil => intro d _; rfl
  | cons h hs ih =>
    intro d hall
    have h1 : entryAfterBlock h (blockTransactions c h) a d = d := by
      simp [entryAfterBlock, hall h (List.mem_cons_self _ _)]
    have h2 := ih d (fun x hx => hall x (List.mem_cons_of_mem _ hx))
    simp only [entryAfterBlocks, List.foldl_cons] at h2 ⊢
    rw [h1, h2]

theorem entryAfterBlocks_last_nonempty (c : Chain) (a : String) (l₁ l₂ : List Nat) (h : Nat)
    (d : TransactionData) (hne : blockTransactions c h ≠ [])
    (hrest : ∀ x ∈ l₂, blockTransactions c x = []) :
    (entryAfterBlocks c a (l₁ ++ h :: l₂) d).LastBlockNumber = h := by
  rw [entryAfterBlocks_append]
  have h1 : entryAfterBlocks c a (h :: l₂) (entryAfterBlocks c a l₁ d) =
      entryAfterBlocks c a l₂
        (entryAfterBlock h (blockTransactions c h) a (entryAfterBlocks c a l₁ d)) := by
    simp [entryAfterBlocks]
  rw [h1, entryAfterBlocks_of_empty c a l₂ _ hrest]
  simp [entryAfterBlock, hne]

theorem range'_split (s e h : Nat) (h1 : s ≤ h) (h2 : h ≤ e) :
    List.range' s (e + 1 - s) = List.range' s (h - s) ++ h :: List.range' (h + 1) (e - h) := by
  have e1 : e + 1 - s = ((e - h) + 1) + (h - s) := by omega
  rw [e1, ← List.range'_append_1 s (h - s) ((e - h) + 1)]
  have e2 : s + (h - s) = h := by omega
  rw [e2, List.range'_succ]

/-! ## The claims -/

/-- C1, counterexample.  With `a` at height 100 and `b` at height 105, one
batch advance against a node at height 100 whose block 100 holds a transaction
puts `b` back to height 100: the stored height of `b` decreases. -/
theorem batch_advance_lowers_height :
    UpdateTransactionsData 3 nodeAt100 twoSubscribers =
        Run.done ⟨(), { subscribers := [("a", ⟨100, []⟩), ("b", ⟨100, []⟩)] }, [100]⟩ ∧
      (GetSubscriber twoSubscribers "b").1.LastBlockNumber = 105 ∧
      (GetSubscriber { subscribers := [("a", ⟨100, []⟩), ("b", ⟨100, []⟩)] } "b").1.LastBlockNumber
        < (GetSubscriber twoSubscribers "b").1.LastBlockNumber := by
  decide

/-- C1, amended.  Let `address` be subscribed and let the node report a height
other than `2 ^ 64 - 1`.  A call of `GetTransactions` (for any address) that
returns leaves the stored height of `address` at least what it was.  A call of
`UpdateTransactionsData` that returns leaves it at least the smallest height
stored for any subscription before the call (it may be below the address's own
earlier height).  With fuel for `C + 2` loop tests, `C` the reported height,
both calls return. -/
theorem lastBlockNumber_after_call (fuel : Nat) (c : Chain) (memory : MemoryDB)
    (address : String) (data : TransactionData)
    (hsub : mapGet memory.subscribers address = some data)
    (hmax : GetCurrentBlock c ≠ some maxUint64) :
    (∀ (queried : String) (out : Outcome (Option (List Transaction))),
        GetTransactions fuel c memory queried = Run.done out →
        ∃ data', mapGet out.memory.subscribers address = some data' ∧
          data.LastBlockNumber ≤ data'.LastBlockNumber) ∧
    (∀ out : Outcome Unit,
        UpdateTransactionsData fuel c memory = Run.done out →
        ∃ data', mapGet out.memory.subscribers address = some data' ∧
          findMinBlockNumber memory.subscribers ≤ data'.LastBlockNumber) ∧
    (∀ C, GetCurrentBlock c = some C → C + 2 ≤ fuel →
        (∀ queried, ∃ out, GetTransactions fuel c memory queried = Run.done out) ∧
        ∃ out, UpdateTransactionsData fuel c memory = Run.done out) := by
  have hbelow : ∀ C, GetCurrentBlock c = some C → C < maxUint64 := by
    intro C hC
    have h1 := GetCurrentBlock_lt c C hC
    have h2 : C ≠ maxUint64 := fun h => hmax (h ▸ hC)
    unfold maxUint64 at h2 ⊢
    omega
  refine ⟨?_, ?_, ?_⟩
  · intro queried out h
    rcases GetTransactions_done fuel c memory queried out h with rfl | ⟨dq, C, r, _, hq, hC, _, hHC, hr, rfl⟩
    · exact ⟨data, hsub, le_refl _⟩
    · obtain ⟨x, hx, hbound⟩ := retrieveLoop_done_memory c memory queried C fuel
        dq.LastBlockNumber [] [] r hr
      have hxb := hbound (hbelow C hC) (by omega)
      by_cases hqa : address = queried
      · subst hqa
        rw [hsub] at hq
        injection hq with hq
        subst hq
        refine ⟨⟨x, []⟩, ?_, hxb.1⟩
        simp [hx, SetSubscriber, mapGet_mapSet_self]
      · refine ⟨data, ?_, le_refl _⟩
        simp [hx, SetSubscriber, mapGet_mapSet_ne _ _ _ _ hqa, hsub]
  · intro out h
    rcases UpdateTransactionsData_done fuel c memory out h with rfl | ⟨hex, C, r, hb, hp, _, hr, rfl⟩
    · exact ⟨data, hsub, findMinBlockNumber_le _ _ _ hsub⟩
    · obtain ⟨hs, h1, h2⟩ := updateSubscribersLoop_trace c C fuel _ _ _ r hr
      have hC := GetCurrentBlock_of_parse c hex C hb hp
      refine ⟨entryAfterBlocks c address hs data, ?_, ?_⟩
      · simp [h1, mapGet_foldl_updateBlock, hsub]
      · rcases entryAfterBlocks_height c address hs data with h3 | h3
        · rw [h3]
          exact findMinBlockNumber_le _ _ _ hsub
        · exact (h2 (hbelow C hC) _ h3).1
  · intro C hC hfuel
    exact ⟨fun queried => GetTransactions_returns fuel c memory queried C hC (hbelow C hC) hfuel,
      UpdateTransactionsData_returns fuel c memory C hC (hbelow C hC) hfuel⟩

/-- C1, witness: the amended statement at the two subscriptions at heights 100
and 105 and the node at height 100, for address `b`. -/
theorem lastBlockNumber_after_call_witness :
    ∃ data', mapGet
        (Outcome.mk () { subscribers := [("a", ⟨100, []⟩), ("b", ⟨100, []⟩)] } [100]
          ).memory.subscribers "b" = some data' ∧
      findMinBlockNumber twoSubscribers.subscribers ≤ data'.LastBlockNumber :=
  (lastBlockNumber_after_call 3 nodeAt100 twoSubscribers "b" ⟨105, []⟩
    (by decide) (by decide)).2.1 _ (by decide)

/-- C2, counterexample.  (i) The empty address is subscribed at height 5, the
node is at height 7, blocks 5 and 6 are served and the fetch at 7 fails:
`GetTransactions` returns nil, fetches nothing and leaves the stored height at
5, not 7.  (ii) `a` is subscribed at height 0, the node reports height 0 and
the fetch at height 0 fails: the call returns nil, not an empty list. -/
theorem first_failure_refused_by_guards :
    (IsSubscriber emptyKeyStore "" = (true, none) ∧
      (GetSubscriber emptyKeyStore "").1.LastBlockNumber = 5 ∧
      GetCurrentBlock nodeFailingAt7 = some 7 ∧
      nodeFailingAt7.getBlockByNumber 5 ≠ none ∧
      nodeFailingAt7.getBlockByNumber 6 ≠ none ∧
      nodeFailingAt7.getBlockByNumber 7 = none ∧
      (∀ fuel, GetTransactions fuel nodeFailingAt7 emptyKeyStore "" =
        Run.done ⟨none, emptyKeyStore, []⟩)) ∧
    (IsSubscriber heightZeroStore "a" = (true, none) ∧
      (GetSubscriber heightZeroStore "a").1.LastBlockNumber = 0 ∧
      GetCurrentBlock failingNodeAt0 = some 0 ∧
      failingNodeAt0.getBlockByNumber 0 = none ∧
      (∀ fuel, GetTransactions fuel failingNodeAt0 heightZeroStore "a" =
        Run.done ⟨none, heightZeroStore, []⟩)) := by
  refine ⟨⟨by decide, by decide, by decide, by decide, by decide, by decide, fun fuel => ?_⟩,
    ⟨by decide, by decide, by decide, by decide, fun fuel => ?_⟩⟩
  · simp [GetTransactions]
  · have hC : GetCurrentBlock failingNodeAt0 = some 0 := by decide
    have hs : mapGet heightZeroStore.subscribers "a" = some ⟨0, []⟩ := by decide
    simp [GetTransactions, IsSubscriber, hC, hs]

/-- C2, amended.  For a non-empty subscribed address with stored height `H`,
when the height query returns `C ≠ 0`, the fetches at `H, ..., f - 1` succeed
and the fetch at `f` (`H ≤ f ≤ C`) fails, `GetTransactions` returns exactly the
transactions of blocks `H, ..., f - 1` that touch the address (an empty non-nil
list when `f = H`), has fetched `H, ..., f` once each, and leaves the address
stored at height `f` with no transactions. -/
theorem getTransactions_first_failure (fuel : Nat) (c : Chain) (memory : MemoryDB)
    (address : String) (data : TransactionData) (C f : Nat)
    (haddr : address ≠ "")
    (hsub : mapGet memory.subscribers address = some data)
    (hC : GetCurrentBlock c = some C) (hC0 : C ≠ 0)
    (hHf : data.LastBlockNumber ≤ f) (hfC : f ≤ C)
    (hok : ∀ h, data.LastBlockNumber ≤ h → h < f → c.getBlockByNumber h ≠ none)
    (hfail : c.getBlockByNumber f = none)
    (hfuel : f + 1 - data.LastBlockNumber ≤ fuel) :
    ∃ out, GetTransactions fuel c memory address = Run.done out ∧
      out.result = some (matchesInRange c address data.LastBlockNumber
        (f - data.LastBlockNumber)) ∧
      out.fetched = List.range' data.LastBlockNumber (f + 1 - data.LastBlockNumber) ∧
      out.memory = (SetSubscriber memory address ⟨f, []⟩).1 ∧
      GetSubscriber out.memory address = (⟨f, []⟩, none) := by
  have hf : f < 2 ^ 64 := lt_of_le_of_lt hfC (GetCurrentBlock_lt c C hC)
  rw [GetTransactions_scan fuel c memory address data C haddr hsub hC hC0 (le_trans hHf hfC),
    retrieveTransactions_failure c memory address fuel data.LastBlockNumber f C hHf hfC hf
      hok hfail hfuel]
  refine ⟨_, rfl, rfl, rfl, rfl, ?_⟩
  simp [GetSubscriber, SetSubscriber, mapGet_mapSet_self]

/-- C2, witness: `a` subscribed at height 5, node at height 7, blocks 5 and 6
served, fetch at 7 failing (`f = H + 2`): the matches of blocks 5 and 6 are
returned and the stored height is 7. -/
theorem getTransactions_first_failure_witness :
    ∃ out, GetTransactions 3 nodeFailingAt7ForA subscribedAt5 "a" = Run.done out ∧
      out.result = some (matchesInRange nodeFailingAt7ForA "a" 5 (7 - 5)) ∧
      out.fetched = List.range' 5 (7 + 1 - 5) ∧
      out.memory = (SetSubscriber subscribedAt5 "a" ⟨7, []⟩).1 ∧
      GetSubscriber out.memory "a" = (⟨7, []⟩, none) :=
  getTransactions_first_failure 3 nodeFailingAt7ForA subscribedAt5 "a" ⟨5, []⟩ 7 7
    (by decide) (by decide) (by decide) (by decide) (by decide) (by decide)
    (by
      intro h h1 h2
      have h1' : 5 ≤ h := h1
      have : h = 5 ∨ h = 6 := by omega
      rcases this with rfl | rfl <;> decide)
    (by decide) (by decide)

/-- C3, counterexample.  (i) `a` is subscribed at height 0, the node reports
height 0 and serves every block: `GetTransactions` returns nil, fetches nothing
and leaves the stored height at 0, not 1.  (ii) The empty address is subscribed
at height 5 and the node, at height 5, serves every block: the call returns nil
and the stored height stays 5, not 6. -/
theorem full_scan_refused_by_guards :
    (IsSubscriber heightZeroStore "a" = (true, none) ∧
      (GetSubscriber heightZeroStore "a").1.LastBlockNumber = 0 ∧
      GetCurrentBlock emptyNodeAt0 = some 0 ∧
      (∀ h, emptyNodeAt0.getBlockByNumber h ≠ none) ∧
      (∀ fuel, GetTransactions fuel emptyNodeAt0 heightZeroStore "a" =
        Run.done ⟨none, heightZeroStore, []⟩)) ∧
    (IsSubscriber emptyKeyStore "" = (true, none) ∧
      (GetSubscriber emptyKeyStore "").1.LastBlockNumber = 5 ∧
      GetCurrentBlock emptyNodeAt5 = some 5 ∧
      (∀ h, emptyNodeAt5.getBlockByNumber h ≠ none) ∧
      (∀ fuel, GetTransactions fuel emptyNodeAt5 emptyKeyStore "" =
        Run.done ⟨none, emptyKeyStore, []⟩)) := by
  refine ⟨⟨by decide, by decide, by decide, fun h => by simp [emptyNodeAt0], fun fuel => ?_⟩,
    ⟨by decide, by decide, by decide, fun h => by simp [emptyNodeAt5], fun fuel => ?_⟩⟩
  · have hC : GetCurrentBlock emptyNodeAt0 = some 0 := by decide
    have hs : mapGet heightZeroStore.subscribers "a" = some ⟨0, []⟩ := by decide
    simp [GetTransactions, IsSubscriber, hC, hs]
  · simp [GetTransactions]

/-- C3, amended.  For a non-empty subscribed address with stored height `H`,
when the height query returns `C` with `C ≠ 0` and `H ≤ C < 2 ^ 64 - 1` and
every fetch in `H, ..., C` succeeds, `GetTransactions` returns the
concatenation, by increasing height and in block order, of the transactions of
blocks `H, ..., C` that touch the address, has fetched `H, ..., C` once each,
and leaves the address stored at height `C + 1` with no transactions. -/
theorem getTransactions_full_success (fuel : Nat) (c : Chain) (memory : MemoryDB)
    (address : String) (data : TransactionData) (C : Nat)
    (haddr : address ≠ "")
    (hsub : mapGet memory.subscribers address = some data)
    (hC : GetCurrentBlock c = some C) (hC0 : C ≠ 0)
    (hHC : data.LastBlockNumber ≤ C) (hmax : C < maxUint64)
    (hok : ∀ h, data.LastBlockNumber ≤ h → h ≤ C → c.getBlockByNumber h ≠ none)
    (hfuel : C + 2 - data.LastBlockNumber ≤ fuel) :
    ∃ out, GetTransactions fuel c memory address = Run.done out ∧
      out.result = some (matchesInRange c address data.LastBlockNumber
        (C + 1 - data.LastBlockNumber)) ∧
      out.fetched = List.range' data.LastBlockNumber (C + 1 - data.LastBlockNumber) ∧
      out.memory = (SetSubscriber memory address ⟨C + 1, []⟩).1 ∧
      GetSubscriber out.memory address = (⟨C + 1, []⟩, none) := by
  rw [GetTransactions_scan fuel c memory address data C haddr hsub hC hC0 hHC,
    retrieveTransactions_success c memory address fuel data.LastBlockNumber C hHC hmax
      hok hfuel]
  refine ⟨_, rfl, rfl, rfl, rfl, ?_⟩
  simp [GetSubscriber, SetSubscriber, mapGet_mapSet_self]

/-- C3, witness: the two subscriptions at heights 100 and 105, the node at
height 107 serving every block, address `b`: blocks 105 to 107 are scanned and
`b` ends at height 108. -/
theorem getTransactions_full_success_witness :
    ∃ out, GetTransactions 4 nodeAt107 twoSubscribers "b" = Run.done out ∧
      out.result = some (matchesInRange nodeAt107 "b" 105 (107 + 1 - 105)) ∧
      out.fetched = List.range' 105 (107 + 1 - 105) ∧
      out.memory = (SetSubscriber twoSubscribers "b" ⟨107 + 1, []⟩).1 ∧
      GetSubscriber out.memory "b" = (⟨107 + 1, []⟩, none) :=
  getTransactions_full_success 4 nodeAt107 twoSubscribers "b" ⟨105, []⟩ 107
    (by decide) (by decide) (by decide) (by decide) (by decide) (by decide)
    (fun h _ _ => by simp [nodeAt107]) (by decide)

/-- C4, the code at the claim's own example.  Two subscriptions at heights 100
and 105, node at height 107, every fetch succeeds.  When every block holds a
transaction, one batch advance fetches 100 to 107 once each and leaves both
addresses at height 107, not 108; when every block is empty it leaves them at
100 and 105. -/
theorem batch_advance_two_addresses :
    UpdateTransactionsData 9 nodeAt107 twoSubscribers =
        Run.done ⟨(), { subscribers := [("a", ⟨107, []⟩), ("b", ⟨107, []⟩)] },
          [100, 101, 102, 103, 104, 105, 106, 107]⟩ ∧
      UpdateTransactionsData 9 emptyNodeAt107 twoSubscribers =
        Run.done ⟨(), twoSubscribers, [100, 101, 102, 103, 104, 105, 106, 107]⟩ := by
  decide

/-- C5, counterexample.  `b` is stored at height 105 and block 100 holds a
transaction sent by `b`: the batch advance that processes block 100 appends
that transaction to the list of `b` and sets the height of `b` to 100. -/
theorem batch_advance_touches_address_ahead :
    100 < (GetSubscriber twoSubscribers "b").1.LastBlockNumber ∧
      UpdateTransactionsData 3 nodeAt100FromB twoSubscribers =
        Run.done ⟨(), { subscribers := [("a", ⟨100, []⟩),
          ("b", ⟨100, [transfer "b" "y"]⟩)] }, [100]⟩ := by
  decide

/-- C5, amended.  When the batch loop processes the block fetched at height
`blockNumber`, it goes on with the map rewritten by `updateBlock`, and in that
map every subscribed address, also one whose stored height is greater than
`blockNumber`, has its entry unchanged if the block holds no transaction;
otherwise its height is `blockNumber` and the block's transactions that touch
it are appended to its list, in block order. -/
theorem batch_block_on_address_ahead (c : Chain) (endBlock fuel blockNumber : Nat)
    (subscribers : Subscribers) (fetched : List Nat) (block : Block)
    (address : String) (data : TransactionData)
    (hle : blockNumber ≤ endBlock)
    (hblock : c.getBlockByNumber blockNumber = some block)
    (hsub : mapGet subscribers address = some data) :
    updateSubscribersLoop c endBlock (fuel + 1) blockNumber subscribers fetched =
        updateSubscribersLoop c endBlock fuel ((blockNumber + 1) % 2 ^ 64)
          (updateBlock blockNumber block.Transactions subscribers)
          (fetched ++ [blockNumber]) ∧
      mapGet (updateBlock blockNumber block.Transactions subscribers) address =
        some (if block.Transactions = [] then data
          else ⟨blockNumber,
            data.Transactions ++ block.Transactions.filter (touches address)⟩) := by
  refine ⟨by simp only [updateSubscribersLoop, hle, if_true, hblock], ?_⟩
  rw [mapGet_updateBlock, hsub]
  simp [entryAfterBlock]

/-- C5, witness: block 100 with one transaction sent by `b`, processed while
`b` is stored at height 105. -/
theorem batch_block_on_address_ahead_witness :
    updateSubscribersLoop nodeAt100FromB 100 (2 + 1) 100 twoSubscribers.subscribers [] =
        updateSubscribersLoop nodeAt100FromB 100 2 ((100 + 1) % 2 ^ 64)
          (updateBlock 100 (Block.mk "0xb0" [transfer "b" "y"]).Transactions
            twoSubscribers.subscribers)
          ([] ++ [100]) ∧
      mapGet (updateBlock 100 (Block.mk "0xb0" [transfer "b" "y"]).Transactions
          twoSubscribers.subscribers) "b" =
        some (if (Block.mk "0xb0" [transfer "b" "y"]).Transactions = [] then ⟨105, []⟩
          else ⟨100, (TransactionData.mk 105 []).Transactions ++
            (Block.mk "0xb0" [transfer "b" "y"]).Transactions.filter (touches "b")⟩) :=
  batch_block_on_address_ahead nodeAt100FromB 100 2 100 twoSubscribers.subscribers []
    ⟨"0xb0", [transfer "b" "y"]⟩ "b" ⟨105, []⟩ (by decide) (by decide) (by decide)

/-- C6, counterexample.  `x` subscribes at chain height 1000 and block 1000
holds a transaction sent by `x`: the immediate `GetTransactions` with the node
still at height 1000 fetches block 1000 and returns that transaction. -/
theorem catch_up_right_after_subscribe_scans :
    GetCurrentBlock nodeAt1000 = some 1000 ∧
      SubscribeAddress nodeAt1000 NewMemoryDB "x" =
        Run.done ⟨true, { subscribers := [("x", ⟨1000, []⟩)] }, []⟩ ∧
      GetTransactions 2 nodeAt1000 { subscribers := [("x", ⟨1000, []⟩)] } "x" =
        Run.done ⟨some [transfer "x" "y"], { subscribers := [("x", ⟨1001, []⟩)] }, [1000]⟩ := by
  decide

/-- C6, amended.  For a non-empty address `X` and a height query returning `h`
with `0 < h`, `SubscribeAddress X` succeeds and stores height `h`; the
immediate `GetTransactions X` with the height query still returning `h` fetches
block `h` and no other block.  If that fetch fails it returns the empty list
and the stored height stays `h`; if it succeeds and `h < 2 ^ 64 - 1` it returns
the transactions of block `h` that touch `X` and the stored height is `h + 1`. -/
theorem subscribe_then_getTransactions (fuel : Nat) (c : Chain) (memory : MemoryDB)
    (X : String) (h : Nat)
    (hX : X ≠ "") (hq : GetCurrentBlock c = some h) (h0 : 0 < h) (hfuel : 2 ≤ fuel) :
    SubscribeAddress c memory X =
        Run.done ⟨true, (SetSubscriber memory X ⟨h, []⟩).1, []⟩ ∧
      (c.getBlockByNumber h = none →
        GetTransactions fuel c (SetSubscriber memory X ⟨h, []⟩).1 X =
          Run.done ⟨some [],
            (SetSubscriber (SetSubscriber memory X ⟨h, []⟩).1 X ⟨h, []⟩).1, [h]⟩) ∧
      (∀ block, c.getBlockByNumber h = some block → h < maxUint64 →
        GetTransactions fuel c (SetSubscriber memory X ⟨h, []⟩).1 X =
          Run.done ⟨some (block.Transactions.filter (touches X)),
            (SetSubscriber (SetSubscriber memory X ⟨h, []⟩).1 X ⟨h + 1, []⟩).1, [h]⟩) := by
  have hh : h ≠ 0 := by omega
  have hsub : mapGet (SetSubscriber memory X ⟨h, []⟩).1.subscribers X = some ⟨h, []⟩ := by
    simp [SetSubscriber, mapGet_mapSet_self]
  refine ⟨by simp [SubscribeAddress, hX, hq, hh, SetSubscriber], ?_, ?_⟩
  · intro hfail
    rw [GetTransactions_scan fuel c _ X ⟨h, []⟩ h hX hsub hq hh (le_refl _),
      retrieveTransactions_failure c _ X fuel h h h (le_refl _) (le_refl _)
        (GetCurrentBlock_lt c h hq) (fun x h1 h2 => absurd h2 (by omega)) hfail (by omega)]
    simp [matchesInRange]
  · intro block hblock hmax
    rw [GetTransactions_scan fuel c _ X ⟨h, []⟩ h hX hsub hq hh (le_refl _),
      retrieveTransactions_success c _ X fuel h h (le_refl _) hmax
        (fun x h1 h2 => by
          have : x = h := by
            have h1' : h ≤ x := h1
            omega
          rw [this, hblock]
          simp)
        (by omega)]
    simp [matchesInRange, blockMatches, hblock]

/-- C6, witness: `x` subscribing at height 1000 on an empty store. -/
theorem subscribe_then_getTransactions_witness :
    SubscribeAddress nodeAt1000 NewMemoryDB "x" =
        Run.done ⟨true, (SetSubscriber NewMemoryDB "x" ⟨1000, []⟩).1, []⟩ ∧
      GetTransactions 2 nodeAt1000 (SetSubscriber NewMemoryDB "x" ⟨1000, []⟩).1 "x" =
        Run.done ⟨some ((Block.mk "0xb0" [transfer "x" "y"]).Transactions.filter (touches "x")),
          (SetSubscriber (SetSubscriber NewMemoryDB "x" ⟨1000, []⟩).1 "x" ⟨1000 + 1, []⟩).1,
          [1000]⟩ :=
  have key := subscribe_then_getTransactions 2 nodeAt1000 NewMemoryDB "x" 1000
    (by decide) (by decide) (by decide) (by decide)
  ⟨key.1, key.2.2 ⟨"0xb0", [transfer "x" "y"]⟩ (by decide) (by decide)⟩

/-- C7, counterexample.  (i) The node answers `eth_blockNumber` with `0x0`: the
query succeeds, `ParseHexUint64` returns 0 with no error, and `SubscribeAddress`
of the non-empty address `a` returns false and stores nothing.  (ii) The node
answers with the empty string: `ParseHexUint64` panics on `hexStr[2:]` and
`SubscribeAddress` returns neither false nor true. -/
theorem subscribe_refused_without_failure :
    (emptyNodeAt0.blockNumber = some "0x0" ∧
      ParseHexUint64 "0x0" = ParseOutcome.value 0 ∧
      SubscribeAddress emptyNodeAt0 NewMemoryDB "a" =
        Run.done ⟨false, NewMemoryDB, []⟩) ∧
    (nodeWithEmptyReply.blockNumber = some "" ∧
      ParseHexUint64 "" = ParseOutcome.panic ∧
      SubscribeAddress nodeWithEmptyReply NewMemoryDB "a" = Run.panic) := by
  decide

/-- C7, amended.  `SubscribeAddress a` returns false and leaves the store
unchanged when `a` is empty or `GetCurrentBlock` returns 0, which it does when
the query fails, when the reply does not parse and when the node reports
height 0.  When `a` is not empty and `GetCurrentBlock` returns `n ≠ 0`, it
returns true and stores for `a` exactly the entry with height `n` and no
transactions, whatever entry `a` had before; every other address keeps its
entry.  Whenever `GetCurrentBlock` returns, `SubscribeAddress` returns, and its
result is true in that second case only. -/
theorem subscribeAddress_spec (c : Chain) (memory : MemoryDB) (address : String) :
    (address = "" → SubscribeAddress c memory address = Run.done ⟨false, memory, []⟩) ∧
    (GetCurrentBlock c = some 0 →
      SubscribeAddress c memory address = Run.done ⟨false, memory, []⟩) ∧
    (∀ n, address ≠ "" → GetCurrentBlock c = some n → n ≠ 0 →
      ∃ out, SubscribeAddress c memory address = Run.done out ∧
        out.result = true ∧ out.fetched = [] ∧
        GetSubscriber out.memory address = (⟨n, []⟩, none) ∧
        IsSubscriber out.memory address = (true, none) ∧
        ∀ other, other ≠ address →
          GetSubscriber out.memory other = GetSubscriber memory other) ∧
    (GetCurrentBlock c = some 0 ↔
      c.blockNumber = none ∨
        ∃ hex, c.blockNumber = some hex ∧
          (ParseHexUint64 hex = ParseOutcome.error ∨
            ParseHexUint64 hex = ParseOutcome.value 0)) ∧
    (∀ out, SubscribeAddress c memory address = Run.done out →
      (out.result = true ↔
        address ≠ "" ∧ ∃ n, n ≠ 0 ∧ GetCurrentBlock c = some n)) ∧
    (GetCurrentBlock c ≠ none →
      ∃ out, SubscribeAddress c memory address = Run.done out) := by
  refine ⟨fun h => by simp [SubscribeAddress, h], fun h => ?_, fun n ha hn h0 => ?_, ?_, ?_, ?_⟩
  · by_cases ha : address = ""
    · simp [SubscribeAddress, ha]
    · simp [SubscribeAddress, ha, h]
  · refine ⟨⟨true, (SetSubscriber memory address ⟨n, []⟩).1, []⟩,
      by simp [SubscribeAddress, ha, hn, h0, SetSubscriber], rfl, rfl, ?_, ?_, ?_⟩
    · simp [GetSubscriber, SetSubscriber, mapGet_mapSet_self]
    · simp [IsSubscriber, SetSubscriber, mapGet_mapSet_self]
    · intro other hne
      simp [GetSubscriber, SetSubscriber, mapGet_mapSet_ne _ _ _ _ hne]
  · cases hb : c.blockNumber with
    | none => simp [GetCurrentBlock, hb]
    | some hex =>
      cases hp : ParseHexUint64 hex with
      | panic => simp [GetCurrentBlock, hb, hp]
      | error => simp [GetCurrentBlock, hb, hp]
      | value n => simp [GetCurrentBlock, hb, hp]
  · intro out hrun
    by_cases ha : address = ""
    · simp [SubscribeAddress, ha] at hrun
      subst hrun
      simp [ha]
    · cases hC : GetCurrentBlock c with
      | none => simp [SubscribeAddress, ha, hC] at hrun
      | some n =>
        by_cases h0 : n = 0
        · simp [SubscribeAddress, ha, hC, h0] at hrun
          subst hrun
          simp [h0]
        · simp [SubscribeAddress, ha, hC, h0, SetSubscriber] at hrun
          subst hrun
          simp [ha, h0]
  · intro hret
    by_cases ha : address = ""
    · exact ⟨⟨false, memory, []⟩, by simp [SubscribeAddress, ha]⟩
    · cases hC : GetCurrentBlock c with
      | none => exact absurd hC hret
      | some n =>
        by_cases h0 : n = 0
        · exact ⟨⟨false, memory, []⟩, by simp [SubscribeAddress, ha, hC, h0]⟩
        · exact ⟨⟨true, (SetSubscriber memory address ⟨n, []⟩).1, []⟩,
            by simp [SubscribeAddress, ha, hC, h0, SetSubscriber]⟩

/-- C7, witness: `a`, stored at height 5 with one transaction, subscribes again
while the node is at height 107; its entry becomes height 107 with no
transactions. -/
theorem subscribeAddress_spec_witness :
    ∃ out, SubscribeAddress nodeAt107 storeWithHistory "a" = Run.done out ∧
      out.result = true ∧ out.fetched = [] ∧
      GetSubscriber out.memory "a" = (⟨107, []⟩, none) ∧
      IsSubscriber out.memory "a" = (true, none) ∧
      ∀ other, other ≠ "a" →
        GetSubscriber out.memory other = GetSubscriber storeWithHistory other :=
  (subscribeAddress_spec nodeAt107 storeWithHistory "a").2.2.1 107
    (by decide) (by decide) (by decide)

/-- C8, the code at a failing input.  `a` subscribes at height 5; the next
height query succeeds with `2 ^ 64 - 1`, not below 5, and every block fetch
succeeds: no amount of fuel lets `GetTransactions` return, the loop counter
wraps from `2 ^ 64 - 1` to 0 and the loop test stays true. -/
theorem getTransactions_never_returns_at_max :
    SubscribeAddress emptyNodeAt5 NewMemoryDB "a" = Run.done ⟨true, subscribedAt5, []⟩ ∧
      GetCurrentBlock nodeAtMaxUint64 = some maxUint64 ∧
      5 ≤ maxUint64 ∧
      ∀ fuel, GetTransactions fuel nodeAtMaxUint64 subscribedAt5 "a" = Run.outOfFuel := by
  refine ⟨by decide, by decide, by decide, fun fuel => ?_⟩
  rw [GetTransactions_scan fuel nodeAtMaxUint64 subscribedAt5 "a" ⟨5, []⟩ maxUint64
    (by decide) (by decide) (by decide) (by decide) (by decide)]
  unfold retrieveTransactions
  rw [retrieveLoop_diverges nodeAtMaxUint64 subscribedAt5 "a"
    (fun h => by simp [nodeAtMaxUint64]) fuel 5 [] [] (by norm_num)]

/-- C9.  `GetTransactions a` returns nil, leaves the store unchanged and
fetches no block when `a` is empty, when `a` is not subscribed, when the height
query fails (`GetCurrentBlock` returns 0), and when the stored height of `a` is
greater than the height returned.  For a non-empty subscribed address a nil
result arises only from the last two cases. -/
theorem getTransactions_hard_errors (fuel : Nat) (c : Chain) (memory : MemoryDB)
    (address : String) :
    (address = "" →
      GetTransactions fuel c memory address = Run.done ⟨none, memory, []⟩) ∧
    (IsSubscriber memory address = (false, none) →
      GetTransactions fuel c memory address = Run.done ⟨none, memory, []⟩) ∧
    (GetCurrentBlock c = some 0 →
      GetTransactions fuel c memory address = Run.done ⟨none, memory, []⟩) ∧
    (∀ C, GetCurrentBlock c = some C →
      IsSubscriber memory address = (true, none) →
      (GetSubscriber memory address).1.LastBlockNumber > C →
      GetTransactions fuel c memory address = Run.done ⟨none, memory, []⟩) ∧
    (∀ out, address ≠ "" → IsSubscriber memory address = (true, none) →
      GetTransactions fuel c memory address = Run.done out → out.result = none →
      GetCurrentBlock c = some 0 ∨
        ∃ C, GetCurrentBlock c = some C ∧
          (GetSubscriber memory address).1.LastBlockNumber > C) := by
  refine ⟨fun h => by simp [GetTransactions, h], fun h => ?_, fun h => ?_,
    fun C hC hs hgt => ?_, fun out ha hs hrun hnil => ?_⟩
  · by_cases ha : address = ""
    · simp [GetTransactions, ha]
    · simp [GetTransactions, ha, h]
  · by_cases ha : address = ""
    · simp [GetTransactions, ha]
    · cases hs : mapGet memory.subscribers address with
      | none => simp [GetTransactions, ha, IsSubscriber, hs]
      | some data => simp [GetTransactions, ha, IsSubscriber, hs, h]
  · by_cases ha : address = ""
    · simp [GetTransactions, ha]
    · cases hm : mapGet memory.subscribers address with
      | none => simp [IsSubscriber, hm] at hs
      | some data =>
        simp only [GetSubscriber, hm] at hgt
        by_cases hC0 : C = 0
        · simp [GetTransactions, ha, IsSubscriber, hm, hC, hC0]
        · simp [GetTransactions, ha, IsSubscriber, GetSubscriber, hm, hC, hC0, hgt]
  · rcases GetTransactions_done fuel c memory address out hrun with rfl | ⟨d, C, r, _, _, _, _, _, _, rfl⟩
    · cases hm : mapGet memory.subscribers address with
      | none => simp [IsSubscriber, hm] at hs
      | some data =>
        cases hC : GetCurrentBlock c with
        | none => simp [GetTransactions, ha, IsSubscriber, hm, hC] at hrun
        | some C =>
          by_cases hC0 : C = 0
          · exact Or.inl (by rw [hC0])
          · right
            refine ⟨C, rfl, ?_⟩
            simp only [GetSubscriber, hm]
            by_contra hle
            have hle' : data.LastBlockNumber ≤ C := Nat.le_of_not_lt hle
            rw [GetTransactions_scan fuel c memory address data C ha hm hC hC0 hle'] at hrun
            cases hr : retrieveTransactions fuel c memory address data.LastBlockNumber C with
            | done r => rw [hr] at hrun; simp at hrun
            | panic => rw [hr] at hrun; cases hrun
            | outOfFuel => rw [hr] at hrun; cases hrun
    · simp at hnil

/-- C9, witness: `a` stored at height 5 while the node reports height 0
(failure of the height query); the call returns nil and changes nothing. -/
theorem getTransactions_hard_errors_witness :
    GetTransactions 3 failingNodeAt0 subscribedAt5 "a" =
      Run.done ⟨none, subscribedAt5, []⟩ :=
  (getTransactions_hard_errors 3 failingNodeAt0 subscribedAt5 "a").2.2.1 (by decide)

/-- Companion of C8 below the overflow: after a successful `SubscribeAddress a`
at height `n`, when the next height query returns `C` with `n ≤ C < 2 ^ 64 - 1`,
`GetTransactions a` returns a non-nil list for every behaviour of the block
fetches, given fuel for `C + 2` loop tests. -/
theorem getTransactions_after_subscribe_nonnil (fuel : Nat) (c₁ c₂ : Chain)
    (memory : MemoryDB) (address : String) (n C : Nat)
    (ha : address ≠ "") (hn : GetCurrentBlock c₁ = some n) (hn0 : n ≠ 0)
    (hC : GetCurrentBlock c₂ = some C) (hnC : n ≤ C) (hmax : C < maxUint64)
    (hfuel : C + 2 ≤ fuel) :
    SubscribeAddress c₁ memory address =
        Run.done ⟨true, (SetSubscriber memory address ⟨n, []⟩).1, []⟩ ∧
      ∃ out transactions,
        GetTransactions fuel c₂ (SetSubscriber memory address ⟨n, []⟩).1 address =
          Run.done out ∧ out.result = some transactions := by
  have hsub : mapGet (SetSubscriber memory address ⟨n, []⟩).1.subscribers address =
      some ⟨n, []⟩ := by
    simp [SetSubscriber, mapGet_mapSet_self]
  refine ⟨by simp [SubscribeAddress, ha, hn, hn0, SetSubscriber], ?_⟩
  obtain ⟨r, hr⟩ := retrieveLoop_terminates c₂ (SetSubscriber memory address ⟨n, []⟩).1
    address C hmax fuel n [] [] (by omega) (by omega)
  refine ⟨⟨some r.result, r.memory, r.fetched⟩, r.result, ?_, rfl⟩
  rw [GetTransactions_scan fuel c₂ _ address ⟨n, []⟩ C ha hsub hC (by omega) hnC]
  unfold retrieveTransactions
  rw [hr]

/-- C10, counterexample.  `a` is stored at height 5 with one transaction; after
a `GetTransactions a` against a node at height 5 the stored list of `a` is
empty, so the list stored before is no initial segment of the list stored
after. -/
theorem getTransactions_drops_stored_list :
    (GetSubscriber storeWithHistory "a").1.Transactions = [transfer "a" "y"] ∧
      GetTransactions 2 emptyNodeAt5 storeWithHistory "a" =
        Run.done ⟨some [], { subscribers := [("a", ⟨6, []⟩)] }, [5]⟩ ∧
      ¬ (GetSubscriber storeWithHistory "a").1.Transactions <+:
        (GetSubscriber { subscribers := [("a", ⟨6, []⟩)] } "a").1.Transactions := by
  refine ⟨by decide, by decide, ?_⟩
  have h1 : (GetSubscriber storeWithHistory "a").1.Transactions = [transfer "a" "y"] := by
    decide
  have h2 : (GetSubscriber { subscribers := [("a", ⟨6, []⟩)] } "a").1.Transactions = [] := by
    decide
  rw [h1, h2]
  simp

/-- C10, amended.  Let `address` be subscribed.  A call of
`UpdateTransactionsData` that returns only extends the stored list of
`address`: the list before is an initial segment of the list after.  A call of
`GetTransactions` that returns nil leaves the store unchanged; one that returns
a list leaves every address other than the queried one with its entry and
leaves the queried address with an empty stored list.  With fuel for `C + 2`
loop tests, `C < 2 ^ 64 - 1` the reported height, both calls return. -/
theorem stored_transactions_after_call (fuel : Nat) (c : Chain) (memory : MemoryDB)
    (address : String) (data : TransactionData)
    (hsub : mapGet memory.subscribers address = some data) :
    (∀ out : Outcome Unit,
        UpdateTransactionsData fuel c memory = Run.done out →
        ∃ data', mapGet out.memory.subscribers address = some data' ∧
          data.Transactions <+: data'.Transactions) ∧
    (∀ (queried : String) (out : Outcome (Option (List Transaction))),
        GetTransactions fuel c memory queried = Run.done out →
        (out.result = none → out.memory = memory) ∧
        (out.result ≠ none → queried ≠ address →
          mapGet out.memory.subscribers address = some data) ∧
        (out.result ≠ none → queried = address →
          ∃ h, mapGet out.memory.subscribers address = some ⟨h, []⟩)) ∧
    (∀ C, GetCurrentBlock c = some C → C < maxUint64 → C + 2 ≤ fuel →
        (∀ queried, ∃ out, GetTransactions fuel c memory queried = Run.done out) ∧
        ∃ out, UpdateTransactionsData fuel c memory = Run.done out) := by
  refine ⟨?_, ?_, ?_⟩
  · intro out h
    rcases UpdateTransactionsData_done fuel c memory out h with rfl | ⟨hex, C, r, _, _, _, hr, rfl⟩
    · exact ⟨data, hsub, List.prefix_refl _⟩
    · obtain ⟨hs, h1, _⟩ := updateSubscribersLoop_trace c C fuel _ _ _ r hr
      exact ⟨entryAfterBlocks c address hs data,
        by simp [h1, mapGet_foldl_updateBlock, hsub],
        entryAfterBlocks_transactions c address hs data⟩
  · intro queried out h
    rcases GetTransactions_done fuel c memory queried out h with rfl | ⟨dq, C, r, _, _, _, _, _, hr, rfl⟩
    · exact ⟨fun _ => rfl, fun hne => absurd rfl hne, fun hne => absurd rfl hne⟩
    · obtain ⟨x, hx, _⟩ := retrieveLoop_done_memory c memory queried C fuel
        dq.LastBlockNumber [] [] r hr
      refine ⟨fun hnil => by simp at hnil, fun _ hqa => ?_, fun _ hqa => ⟨x, ?_⟩⟩
      · simp [hx, SetSubscriber, mapGet_mapSet_ne _ _ _ _ (Ne.symm hqa), hsub]
      · simp [hx, SetSubscriber, hqa, mapGet_mapSet_self]
  · intro C hC hmax hfuel
    exact ⟨fun queried => GetTransactions_returns fuel c memory queried C hC hmax hfuel,
      UpdateTransactionsData_returns fuel c memory C hC hmax hfuel⟩

/-- C10, witness: the batch advance of the node at height 100 whose block holds
a transaction sent by `b` extends the (empty) stored list of `b`. -/
theorem stored_transactions_after_call_witness :
    ∃ data', mapGet
        (Outcome.mk () { subscribers := [("a", ⟨100, []⟩),
          ("b", ⟨100, [transfer "b" "y"]⟩)] } [100]).memory.subscribers "b" = some data' ∧
      (TransactionData.mk 105 []).Transactions <+: data'.Transactions :=
  (stored_transactions_after_call 3 nodeAt100FromB twoSubscribers "b" ⟨105, []⟩
    (by decide)).1 _ (by decide)

/-- C11, counterexample.  The store's field is the map reference 0, whose table
holds `a` at height 100.  Assigning the entry of `a` in the map returned by
`GetSubscribers` changes what `GetSubscriber`, and `GetSubscribers` read through
the store, return afterwards; and a batch advance, which calls neither
`SetSubscriber` nor `DeleteSubscriber`, changes the entry of `b`. -/
theorem returned_map_is_the_store_map :
    GetSubscriber (storeRef0.state heapWithA) "a" = (⟨100, []⟩, none) ∧
      GetSubscriber
          (storeRef0.state (assignEntry heapWithA (GetSubscribersRef storeRef0).1 "a" ⟨7, []⟩))
          "a" = (⟨7, []⟩, none) ∧
      (GetSubscribers
          (storeRef0.state (assignEntry heapWithA (GetSubscribersRef storeRef0).1 "a" ⟨7, []⟩))).1
        ≠ (GetSubscribers (storeRef0.state heapWithA)).1 ∧
      GetSubscriber twoSubscribers "b" = (⟨105, []⟩, none) ∧
      UpdateTransactionsData 3 nodeAt100FromB twoSubscribers =
        Run.done ⟨(), { subscribers := [("a", ⟨100, []⟩),
          ("b", ⟨100, [transfer "b" "y"]⟩)] }, [100]⟩ := by
  decide

/-- C11, amended.  `GetSubscribers` returns the store's own map reference, not
a copy: assigning an entry in the returned map changes the store exactly as
`SetSubscriber` with the same arguments does.  Afterwards `GetSubscriber` of
that address returns the assigned state, `IsSubscriber` is true, and every
other address reads as before. -/
theorem assign_in_returned_map (heap : MapHeap) (memory : MemoryDBRef) (address : String)
    (data : TransactionData) :
    memory.state (assignEntry heap (GetSubscribersRef memory).1 address data) =
        (SetSubscriber (memory.state heap) address data).1 ∧
      GetSubscriber (memory.state (assignEntry heap (GetSubscribersRef memory).1 address data))
        address = (data, none) ∧
      IsSubscriber (memory.state (assignEntry heap (GetSubscribersRef memory).1 address data))
        address = (true, none) ∧
      ∀ other, other ≠ address →
        GetSubscriber
            (memory.state (assignEntry heap (GetSubscribersRef memory).1 address data)) other =
          GetSubscriber (memory.state heap) other := by
  have h : memory.state (assignEntry heap (GetSubscribersRef memory).1 address data) =
      (SetSubscriber (memory.state heap) address data).1 := by
    simp [MemoryDBRef.state, assignEntry, GetSubscribersRef, SetSubscriber]
  refine ⟨h, ?_, ?_, ?_⟩
  · rw [h]; simp [GetSubscriber, SetSubscriber, mapGet_mapSet_self]
  · rw [h]; simp [IsSubscriber, SetSubscriber, mapGet_mapSet_self]
  · intro other hne
    rw [h]
    simp [GetSubscriber, SetSubscriber, MemoryDBRef.state, mapGet_mapSet_ne _ _ _ _ hne]

/-- C12, counterexample.  On a nil store `SetSubscriber` returns
`ErrMemoryDBNotFound` and the following `GetSubscriber` returns the zero state
with that error, not the state that was set; `IsSubscriber` is false. -/
theorem set_on_nil_store_is_lost :
    Ptr.SetSubscriber none "a" ⟨5, [transfer "a" "y"]⟩ =
        (none, some StoreError.ErrMemoryDBNotFound) ∧
      Ptr.GetSubscriber (Ptr.SetSubscriber none "a" ⟨5, [transfer "a" "y"]⟩).1 "a" =
        (NewTransactionData, some StoreError.ErrMemoryDBNotFound) ∧
      (Ptr.GetSubscriber (Ptr.SetSubscriber none "a" ⟨5, [transfer "a" "y"]⟩).1 "a").1 ≠
        ⟨5, [transfer "a" "y"]⟩ ∧
      Ptr.IsSubscriber (Ptr.SetSubscriber none "a" ⟨5, [transfer "a" "y"]⟩).1 "a" =
        (false, some StoreError.ErrMemoryDBNotFound) := by
  decide

/-- C12, amended.  For every non-nil store, address `a` and state `d`:
`SetSubscriber a d` returns no error; afterwards `GetSubscriber a` returns
exactly `d` with no error, whatever entry `a` had before, `IsSubscriber a` is
true, and for every address `b` other than `a` the results of `GetSubscriber b`
and `IsSubscriber b` are the same as before the call. -/
theorem set_then_get (memory : MemoryDB) (a : String) (d : TransactionData) :
    (Ptr.SetSubscriber (some memory) a d).2 = none ∧
      Ptr.GetSubscriber (Ptr.SetSubscriber (some memory) a d).1 a = (d, none) ∧
      Ptr.IsSubscriber (Ptr.SetSubscriber (some memory) a d).1 a = (true, none) ∧
      ∀ b, b ≠ a →
        Ptr.GetSubscriber (Ptr.SetSubscriber (some memory) a d).1 b =
            Ptr.GetSubscriber (some memory) b ∧
          Ptr.IsSubscriber (Ptr.SetSubscriber (some memory) a d).1 b =
            Ptr.IsSubscriber (some memory) b := by
  refine ⟨rfl, ?_, ?_, fun b hne => ⟨?_, ?_⟩⟩
  · simp [Ptr.SetSubscriber, Ptr.GetSubscriber, GetSubscriber, SetSubscriber,
      mapGet_mapSet_self]
  · simp [Ptr.SetSubscriber, Ptr.IsSubscriber, IsSubscriber, SetSubscriber,
      mapGet_mapSet_self]
  · simp [Ptr.SetSubscriber, Ptr.GetSubscriber, GetSubscriber, SetSubscriber,
      mapGet_mapSet_ne _ _ _ _ hne]
  · simp [Ptr.SetSubscriber, Ptr.IsSubscriber, IsSubscriber, SetSubscriber,
      mapGet_mapSet_ne _ _ _ _ hne]

/-- C13.  For every non-nil store and address `a`, `GetSubscriber a` fails with
`ErrAddressNotFound` exactly when `IsSubscriber a` is false, and then returns
the zero state; it never fails with another error; on the store created by
`NewMemoryDB` it fails for every address. -/
theorem get_fails_iff_not_subscriber (memory : MemoryDB) (a : String) :
    ((Ptr.GetSubscriber (some memory) a).2 = some StoreError.ErrAddressNotFound ↔
        (Ptr.IsSubscriber (some memory) a).1 = false) ∧
      ((Ptr.IsSubscriber (some memory) a).1 = false →
        Ptr.GetSubscriber (some memory) a =
          (⟨0, []⟩, some StoreError.ErrAddressNotFound)) ∧
      ((Ptr.IsSubscriber (some memory) a).1 = true →
        (Ptr.GetSubscriber (some memory) a).2 = none) ∧
      (Ptr.IsSubscriber (some memory) a).2 = none ∧
      Ptr.GetSubscriber (some NewMemoryDB) a =
        (⟨0, []⟩, some StoreError.ErrAddressNotFound) := by
  cases h : mapGet memory.subscribers a with
  | none =>
    simp [Ptr.GetSubscriber, Ptr.IsSubscriber, GetSubscriber, IsSubscriber, h,
      NewTransactionData, NewMemoryDB, mapGet]
  | some d =>
    simp [Ptr.GetSubscriber, Ptr.IsSubscriber, GetSubscriber, IsSubscriber, h,
      NewTransactionData, NewMemoryDB, mapGet]

/-- C14.  For every non-nil store and address `a`, `DeleteSubscriber a` returns
no error whether or not `a` is present; afterwards `IsSubscriber a` is false,
every other address reads as before, and deleting `a` a second time gives the
same store as deleting it once. -/
theorem delete_spec (memory : MemoryDB) (a : String) :
    (Ptr.DeleteSubscriber (some memory) a).2 = none ∧
      Ptr.IsSubscriber (Ptr.DeleteSubscriber (some memory) a).1 a = (false, none) ∧
      (∀ b, b ≠ a →
        Ptr.GetSubscriber (Ptr.DeleteSubscriber (some memory) a).1 b =
            Ptr.GetSubscriber (some memory) b ∧
          Ptr.IsSubscriber (Ptr.DeleteSubscriber (some memory) a).1 b =
            Ptr.IsSubscriber (some memory) b) ∧
      Ptr.DeleteSubscriber (Ptr.DeleteSubscriber (some memory) a).1 a =
        Ptr.DeleteSubscriber (some memory) a := by
  refine ⟨rfl, ?_, fun b hne => ⟨?_, ?_⟩, ?_⟩
  · simp [Ptr.DeleteSubscriber, Ptr.IsSubscriber, IsSubscriber, DeleteSubscriber,
      mapGet_mapDelete_self]
  · simp [Ptr.DeleteSubscriber, Ptr.GetSubscriber, GetSubscriber, DeleteSubscriber,
      mapGet_mapDelete_ne _ _ _ hne]
  · simp [Ptr.DeleteSubscriber, Ptr.IsSubscriber, IsSubscriber, DeleteSubscriber,
      mapGet_mapDelete_ne _ _ _ hne]
  · simp [Ptr.DeleteSubscriber, DeleteSubscriber, mapDelete_idem]

/-- C17.  For every map of subscriptions (heights of type `uint64`),
`findMinBlockNumber` is at most the height of every entry, equals the height of
some entry when the map is non-empty, and is `2 ^ 64 - 1` for the empty map.
`UpdateTransactionsData` on a store with no subscriptions fetches no block and
leaves the store unchanged, for every fuel: it returns, unless the reply to
`eth_blockNumber` is so short that `ParseHexUint64` panics. -/
theorem findMinBlockNumber_spec (subscribers : Subscribers)
    (htype : subscribers.Uint64) :
    (∀ e ∈ subscribers, findMinBlockNumber subscribers ≤ e.2.LastBlockNumber) ∧
      (subscribers ≠ [] →
        ∃ e ∈ subscribers, findMinBlockNumber subscribers = e.2.LastBlockNumber) ∧
      findMinBlockNumber [] = maxUint64 ∧
      ∀ (fuel : Nat) (c : Chain),
        UpdateTransactionsData fuel c { subscribers := [] } =
            Run.done ⟨(), { subscribers := [] }, []⟩ ∨
          (UpdateTransactionsData fuel c { subscribers := [] } = Run.panic ∧
            ∃ hex, c.blockNumber = some hex ∧ ParseHexUint64 hex = ParseOutcome.panic) := by
  refine ⟨(foldl_min_le subscribers maxUint64).2, ?_, rfl, ?_⟩
  · intro hne
    rcases foldl_min_mem subscribers maxUint64 with h | h
    · obtain ⟨e, rest, rfl⟩ : ∃ e rest, subscribers = e :: rest := by
        cases subscribers with
        | nil => exact absurd rfl hne
        | cons e rest => exact ⟨e, rest, rfl⟩
      refine ⟨e, List.mem_cons_self _ _, ?_⟩
      have h1 := (foldl_min_le (e :: rest) maxUint64).2 e (List.mem_cons_self _ _)
      have h2 := htype e (List.mem_cons_self _ _)
      unfold findMinBlockNumber
      rw [h] at h1 ⊢
      omega
    · exact h
  · intro fuel c
    cases hb : c.blockNumber with
    | none => left; simp [UpdateTransactionsData, GetSubscribers, hb]
    | some hex =>
      cases hp : ParseHexUint64 hex with
      | panic =>
        right
        exact ⟨by simp [UpdateTransactionsData, GetSubscribers, hb, hp], hex, rfl, hp⟩
      | error => left; simp [UpdateTransactionsData, GetSubscribers, hb, hp]
      | value C =>
        left
        have hmin : findMinBlockNumber [] = maxUint64 := rfl
        simp [UpdateTransactionsData, GetSubscribers, hb, hp, hmin]

/-- C17, witness: the two subscriptions at heights 100 and 105; the minimum is
100, the height of `a`. -/
theorem findMinBlockNumber_spec_witness :
    (∀ e ∈ twoSubscribers.subscribers,
        findMinBlockNumber twoSubscribers.subscribers ≤ e.2.LastBlockNumber) ∧
      (∃ e ∈ twoSubscribers.subscribers,
        findMinBlockNumber twoSubscribers.subscribers = e.2.LastBlockNumber) ∧
      findMinBlockNumber twoSubscribers.subscribers = 100 :=
  have key := findMinBlockNumber_spec twoSubscribers.subscribers (by
    unfold Subscribers.Uint64
    decide)
  ⟨key.1, key.2.1 (by decide), by decide⟩

/-- C18.  For every `n` of type `uint64`, `ParseHexUint64` applied to the string
`fmt.Sprintf("0x%x", n)` returns `n` with no error, so `GetCurrentBlock`
returns `n` when the node replies with that string, whatever else the node
does; the value returned is not 0 when `n > 0`. -/
theorem height_roundtrip (n : Nat) (hn : n < 2 ^ 64) :
    ParseHexUint64 (sprintfHex n) = ParseOutcome.value n ∧
      (∀ blocks, GetCurrentBlock (Chain.mk (some (sprintfHex n)) blocks) = some n) ∧
      (0 < n → ∀ blocks, GetCurrentBlock (Chain.mk (some (sprintfHex n)) blocks) ≠ some 0) := by
  have h := ParseHexUint64_sprintfHex n hn
  refine ⟨h, fun blocks => by simp [GetCurrentBlock, h], fun h0 blocks => ?_⟩
  simp [GetCurrentBlock, h]
  omega

/-- C18, witness: height 1000 is sent as `0x3e8` and read back as 1000. -/
theorem height_roundtrip_witness :
    sprintfHex 1000 = "0x3e8" ∧ ParseHexUint64 (sprintfHex 1000) = ParseOutcome.value 1000 :=
  ⟨by decide, (height_roundtrip 1000 (by decide)).1⟩

/-- C15.  For a subscribed address with stored height `H` and a height query
returning `C` with `H ≤ C < 2 ^ 64 - 1`, every fetch in `H, ..., C` succeeding:
a `GetTransactions` that returns a list has issued its block fetches at exactly
the heights `H, H + 1, ..., C`, each once, in increasing order, and at no other
height.  Such a call exists: for a non-empty address and `C ≠ 0` the call
returns a list once the fuel covers `C + 2 - H` loop tests. -/
theorem fetches_of_full_catch_up (c : Chain) (memory : MemoryDB) (address : String)
    (data : TransactionData) (C : Nat)
    (hsub : mapGet memory.subscribers address = some data)
    (hC : GetCurrentBlock c = some C)
    (hHC : data.LastBlockNumber ≤ C) (hmax : C < maxUint64)
    (hok : ∀ h, data.LastBlockNumber ≤ h → h ≤ C → c.getBlockByNumber h ≠ none) :
    (∀ (fuel : Nat) (out : Outcome (Option (List Transaction))),
        GetTransactions fuel c memory address = Run.done out → out.result ≠ none →
        out.fetched = List.range' data.LastBlockNumber (C + 1 - data.LastBlockNumber) ∧
          out.fetched.Nodup ∧ out.fetched.Pairwise (· < ·) ∧
          ∀ h, h ∈ out.fetched ↔ data.LastBlockNumber ≤ h ∧ h ≤ C) ∧
      (address ≠ "" → C ≠ 0 → ∀ fuel, C + 2 - data.LastBlockNumber ≤ fuel →
        ∃ out, GetTransactions fuel c memory address = Run.done out ∧
          out.result ≠ none) := by
  refine ⟨fun fuel out hrun hres => ?_, fun haddr hC0 fuel hfuel => ?_⟩
  · obtain ⟨_, _, _, rfl⟩ := GetTransactions_full_success_out fuel c memory address data C
      out hsub hC hmax hok hrun hres
    refine ⟨rfl, List.nodup_range' _ _, List.pairwise_lt_range' _ _, fun h => ?_⟩
    simp only [List.mem_range'_1]
    omega
  · rw [GetTransactions_scan fuel c memory address data C haddr hsub hC hC0 hHC,
      retrieveTransactions_success c memory address fuel data.LastBlockNumber C hHC hmax
        hok hfuel]
    exact ⟨_, rfl, by simp⟩

/-- C15, witness: `b` at height 105, node at height 107 serving every block;
the call fetches 105, 106, 107. -/
theorem fetches_of_full_catch_up_witness :
    ∃ out, GetTransactions 4 nodeAt107 twoSubscribers "b" = Run.done out ∧
      out.fetched = [105, 106, 107] := by
  have key := fetches_of_full_catch_up nodeAt107 twoSubscribers "b" ⟨105, []⟩ 107
    (by decide) (by decide) (by decide) (by decide) (fun h _ _ => by simp [nodeAt107])
  obtain ⟨out, hrun, hres⟩ := key.2 (by decide) (by decide) 4 (by decide)
  exact ⟨out, hrun, (key.1 4 out hrun hres).1⟩

/-- C19.  For a subscribed address with stored height `H` and a height query
returning `C` with `0 < C < 2 ^ 64 - 1`: after a `GetTransactions` that
returned a list with every fetch in `H, ..., C` succeeding, the address is
stored at height `C + 1`, and a second `GetTransactions` for the same address,
the height query still returning `C`, returns nil, fetches no block and leaves
the store unchanged, for every fuel and whatever the block fetches would do. -/
theorem second_catch_up_is_refused (fuel fuel' : Nat) (c c' : Chain) (memory : MemoryDB)
    (address : String) (data : TransactionData) (C : Nat)
    (out : Outcome (Option (List Transaction)))
    (hsub : mapGet memory.subscribers address = some data)
    (hC : GetCurrentBlock c = some C) (h0 : 0 < C) (hmax : C < maxUint64)
    (hok : ∀ h, data.LastBlockNumber ≤ h → h ≤ C → c.getBlockByNumber h ≠ none)
    (hfirst : GetTransactions fuel c memory address = Run.done out)
    (hres : out.result ≠ none)
    (hC' : GetCurrentBlock c' = some C) :
    GetSubscriber out.memory address = (⟨C + 1, []⟩, none) ∧
      GetTransactions fuel' c' out.memory address = Run.done ⟨none, out.memory, []⟩ := by
  obtain ⟨haddr, _, _, rfl⟩ := GetTransactions_full_success_out fuel c memory address data C
    out hsub hC hmax hok hfirst hres
  have hget : mapGet (SetSubscriber memory address ⟨C + 1, []⟩).1.subscribers address =
      some ⟨C + 1, []⟩ := by
    simp [SetSubscriber, mapGet_mapSet_self]
  have hC0 : C ≠ 0 := by omega
  refine ⟨by simp [GetSubscriber, hget], ?_⟩
  simp [GetTransactions, haddr, IsSubscriber, GetSubscriber, hget, hC', hC0]

/-- C19, witness: `b` at height 105 catches up to the node at height 107 and
asks again while the node is still at height 107. -/
theorem second_catch_up_is_refused_witness :
    GetSubscriber { subscribers := [("a", ⟨100, []⟩), ("b", ⟨108, []⟩)] } "b" =
        (⟨107 + 1, []⟩, none) ∧
      GetTransactions 0 emptyNodeAt107 { subscribers := [("a", ⟨100, []⟩), ("b", ⟨108, []⟩)] }
          "b" =
        Run.done ⟨none, { subscribers := [("a", ⟨100, []⟩), ("b", ⟨108, []⟩)] }, []⟩ :=
  second_catch_up_is_refused 4 0 nodeAt107 emptyNodeAt107 twoSubscribers "b" ⟨105, []⟩ 107
    ⟨some [], { subscribers := [("a", ⟨100, []⟩), ("b", ⟨108, []⟩)] }, [105, 106, 107]⟩
    (by decide) (by decide) (by decide) (by decide) (fun h _ _ => by simp [nodeAt107])
    (by decide) (by decide) (by decide)

/-- C16.  In a call of `GetTransactions` for `A` that returns a list, the
heights fetched are pairwise distinct and the list returned is the
concatenation, over the heights fetched, of the transactions of that block that
touch `A`.  In a call of `UpdateTransactionsData` that returns, the heights
fetched are pairwise distinct and the stored list of a subscribed `A` grows by
that same concatenation.  What one block `B` contributes has exactly as many
entries as `B` has transactions whose sender or recipient is `A`, hence at most
that many.  With fuel for `C + 2` loop tests, `C < 2 ^ 64 - 1` the reported
height, both calls return. -/
theorem each_block_matched_once (fuel : Nat) (c : Chain) (memory : MemoryDB) (A : String) :
    (∀ (out : Outcome (Option (List Transaction))) (l : List Transaction),
        GetTransactions fuel c memory A = Run.done out → out.result = some l →
        out.fetched.Nodup ∧ l = out.fetched.flatMap (blockMatches c A)) ∧
      (∀ (out : Outcome Unit) (data : TransactionData),
        UpdateTransactionsData fuel c memory = Run.done out →
        mapGet memory.subscribers A = some data →
        out.fetched.Nodup ∧
          ∃ data', mapGet out.memory.subscribers A = some data' ∧
            data'.Transactions =
              data.Transactions ++ out.fetched.flatMap (blockMatches c A)) ∧
      (∀ B, (blockMatches c A B).length = (blockTransactions c B).countP (touches A) ∧
        (blockMatches c A B).length ≤ (blockTransactions c B).countP (touches A)) ∧
      (∀ C, GetCurrentBlock c = some C → C < maxUint64 → C + 2 ≤ fuel →
        (∃ out, GetTransactions fuel c memory A = Run.done out) ∧
          ∃ out, UpdateTransactionsData fuel c memory = Run.done out) := by
  refine ⟨?_, ?_, ?_, ?_⟩
  · intro out l hrun hres
    rcases GetTransactions_done fuel c memory A out hrun with rfl | ⟨dq, C, r, _, _, hC, _, hHC, hr, rfl⟩
    · simp at hres
    · have hb : dq.LastBlockNumber < 2 ^ 64 := lt_of_le_of_lt hHC (GetCurrentBlock_lt c C hC)
      obtain ⟨n, h1, h2, h3, h4⟩ := retrieveLoop_wrap_trace c memory A C fuel
        dq.LastBlockNumber [] [] r hb hr
      obtain ⟨hnd, hnot⟩ := wrapHeights_nodup
        (fun h => h ≤ C ∧ c.getBlockByNumber h ≠ none) dq.LastBlockNumber n h1 h2
      simp only [Option.some.injEq] at hres
      subst hres
      rcases h4 with h4 | ⟨h4, h5⟩
      · simp only [List.nil_append] at h4 h3
        exact ⟨by rw [h4]; exact hnd, by rw [h4, h3]⟩
      · simp only [List.nil_append] at h5 h3
        have hfail := blockMatches_of_fail c A _ h4
        refine ⟨?_, ?_⟩
        · show r.fetched.Nodup
          rw [h5, List.nodup_append]
          exact ⟨hnd, by simp, by
            intro x hx hx'
            simp at hx'
            exact hnot (hx' ▸ hx)⟩
        · show r.result = r.fetched.flatMap (blockMatches c A)
          rw [h5, h3]
          simp only [List.flatMap_append]
          simpa using hfail
  · intro out data hrun hsub
    rcases UpdateTransactionsData_done fuel c memory out hrun with rfl | ⟨hex, C, r, _, _, _, hr, rfl⟩
    · exact ⟨by simp, data, hsub, by simp⟩
    · have hb : findMinBlockNumber memory.subscribers < 2 ^ 64 := by
        have := findMinBlockNumber_le_max memory.subscribers
        unfold maxUint64 at this
        omega
      obtain ⟨n, h1, h2, h3, h4⟩ := updateSubscribersLoop_wrap_trace c C fuel _ _ _ r hb hr
      obtain ⟨hnd, hnot⟩ := wrapHeights_nodup
        (fun h => h ≤ C ∧ c.getBlockByNumber h ≠ none) _ n h1 h2
      have hget : mapGet r.1 A = some (entryAfterBlocks c A
          (wrapHeights (findMinBlockNumber memory.subscribers) n) data) := by
        simp [h3, mapGet_foldl_updateBlock, hsub]
      rcases h4 with h4 | ⟨h4, h5⟩
      · simp only [List.nil_append] at h4
        exact ⟨by simpa [h4] using hnd, _, hget, by
          simp [h4, entryAfterBlocks_transactions_eq]⟩
      · simp only [List.nil_append] at h5
        refine ⟨?_, _, hget, ?_⟩
        · simp only [h5]
          rw [List.nodup_append]
          exact ⟨hnd, by simp, by
            intro x hx hx'
            simp at hx'
            exact hnot (hx' ▸ hx)⟩
        · have hfail := blockMatches_of_fail c A _ h4
          simp only [h5, entryAfterBlocks_transactions_eq, List.flatMap_append]
          simpa using hfail
  · intro B
    have h : (blockMatches c A B).length = (blockTransactions c B).countP (touches A) := by
      rw [blockMatches_eq_filter, List.countP_eq_length_filter]
    exact ⟨h, le_of_eq h⟩
  · intro C hC hmax hfuel
    exact ⟨GetTransactions_returns fuel c memory A C hC hmax hfuel,
      UpdateTransactionsData_returns fuel c memory C hC hmax hfuel⟩

/-- C16, witness: `a` at height 5, node at height 7 serving blocks 5 and 6 and
failing at 7; the list returned is the concatenation of the matches of the
heights fetched, 5, 6 and 7. -/
theorem each_block_matched_once_witness :
    [5, 6, 7].Nodup ∧
      [transfer "x" "a", transfer "a" "z"] =
        [5, 6, 7].flatMap (blockMatches nodeFailingAt7ForA "a") :=
  (each_block_matched_once 3 nodeFailingAt7ForA subscribedAt5 "a").1
    ⟨some [transfer "x" "a", transfer "a" "z"], { subscribers := [("a", ⟨7, []⟩)] }, [5, 6, 7]⟩
    [transfer "x" "a", transfer "a" "z"] (by decide) rfl

/-- C20.  For a range `startBlock ≤ endBlock < 2 ^ 64 - 1` in which every block
fetch succeeds, `updateSubscribersData` returns after fetching every height of
the range once, in order.  Every subscriber then has as height the largest
height of the range whose block holds at least one transaction; its entry is
unchanged when no block of the range holds a transaction; and its list is the
old list followed by the transactions of the blocks of the range that touch the
address, by increasing height and in block order. -/
theorem updateSubscribersData_spec (fuel : Nat) (c : Chain) (subscribers : Subscribers)
    (startBlock endBlock : Nat) (address : String) (data : TransactionData)
    (hrange : startBlock ≤ endBlock) (hmax : endBlock < maxUint64)
    (hok : ∀ h, startBlock ≤ h → h ≤ endBlock → c.getBlockByNumber h ≠ none)
    (hsub : mapGet subscribers address = some data)
    (hfuel : endBlock + 2 - startBlock ≤ fuel) :
    ∃ subscribers' data',
      updateSubscribersData fuel c subscribers startBlock endBlock =
          Run.done (subscribers', List.range' startBlock (endBlock + 1 - startBlock)) ∧
        mapGet subscribers' address = some data' ∧
        (∀ h, startBlock ≤ h → h ≤ endBlock → blockTransactions c h ≠ [] →
          (∀ h', h < h' → h' ≤ endBlock → blockTransactions c h' = []) →
          data'.LastBlockNumber = h) ∧
        ((∀ h, startBlock ≤ h → h ≤ endBlock → blockTransactions c h = []) →
          data' = data) ∧
        data'.Transactions =
          data.Transactions ++
            matchesInRange c address startBlock (endBlock + 1 - startBlock) := by
  refine ⟨_, entryAfterBlocks c address
      (List.range' startBlock (endBlock + 1 - startBlock)) data,
    updateSubscribersData_success c subscribers fuel startBlock endBlock hrange hmax hok hfuel,
    by simp [mapGet_foldl_updateBlock, hsub], ?_, ?_, ?_⟩
  · intro h h1 h2 hne hrest
    rw [range'_split startBlock endBlock h h1 h2]
    apply entryAfterBlocks_last_nonempty c address _ _ h data hne
    intro x hx
    rw [List.mem_range'_1] at hx
    exact hrest x (by omega) (by omega)
  · intro hall
    apply entryAfterBlocks_of_empty
    intro x hx
    rw [List.mem_range'_1] at hx
    exact hall x (by omega) (by omega)
  · rw [entryAfterBlocks_transactions_eq]
    rfl

/-- C20, witness: the two subscriptions, range 100 to 107, blocks up to 103
holding one transfer to `a` and later blocks empty: `a` ends at height 103 with
the four transfers of blocks 100 to 103 appended. -/
theorem updateSubscribersData_spec_witness :
    ∃ subscribers' data',
      updateSubscribersData 9 nodeQuietAfter103 twoSubscribers.subscribers 100 107 =
          Run.done (subscribers', List.range' 100 (107 + 1 - 100)) ∧
        mapGet subscribers' "a" = some data' ∧
        data'.LastBlockNumber = 103 ∧
        data'.Transactions =
          (TransactionData.mk 100 []).Transactions ++
            matchesInRange nodeQuietAfter103 "a" 100 (107 + 1 - 100) := by
  obtain ⟨subscribers', data', h1, h2, h3, _, h5⟩ :=
    updateSubscribersData_spec 9 nodeQuietAfter103 twoSubscribers.subscribers 100 107 "a"
      ⟨100, []⟩ (by decide) (by decide)
      (fun h _ _ => by
        unfold nodeQuietAfter103
        simp only
        split <;> simp)
      (by decide) (by decide)
  refine ⟨subscribers', data', h1, h2, h3 103 (by decide) (by decide) (by decide) ?_, h5⟩
  intro h' hlo _
  have hgt : ¬ h' ≤ 103 := by omega
  simp [blockTransactions, nodeQuietAfter103, hgt]

end EthParser
